import Mathlib

/-! # Frequent seed masking

A shallow embedding of `src/data/frequent_seeds.cpp` (DIAMOND protein aligner):
the statistics pass (`compute_sd`), the threshold derivation, the two build
passes (`Build_context`, `Build_context2`) and the hash-table sizing, followed
by theorems about them.

Conventions.
* `unsigned` is 32 bits and `size_t` is 64 bits; values are `Nat` and every
  narrowing that the source performs is written as an explicit `% 2 ^ 32` or
  `% 2 ^ 64`.
* Collaborators that are declared in headers outside the translated file
  (`sorted_list`, `Merge_iterator`, `JoinResult`, `PHash_set`,
  `SeedPartitionRange`, the thread pools) are modelled from the specification;
  each such definition says so in its doc comment.
-/

namespace FrequentSeeds

set_option maxRecDepth 100000
set_option exponentiation.threshold 10000

/-! ## Data model -/

/-- Modelled from the spec: the occurrence group exposed by a `sorted_list` cursor
(the header `sorted_list.h` is missing).  A group has a seed `key` and the
occurrence records sharing it; `recs` holds the mutable `value` field of each
record, record 0 first. -/
structure Group where
  key : Nat
  recs : List Nat
deriving DecidableEq

/-- The count `it.n` of a group cursor. -/
def Group.n (g : Group) : Nat := g.recs.length

/-- The write `get(0)->value = 0` (and `s[0] = 0`) on the record list of a group. -/
def zeroFirst (recs : List Nat) : List Nat := recs.set 0 0

/-- Modelled from the spec: the half-open partition interval `SeedPartitionRange`
(its header is missing): `contains(p)` iff `begin <= p < end`, `size() = end - begin`. -/
structure SeedPartitionRange where
  begin_ : Nat
  end_ : Nat
deriving DecidableEq

/-- Membership test `range.contains(p)`. -/
def SeedPartitionRange.contains (r : SeedPartitionRange) (p : Nat) : Bool :=
  decide (r.begin_ ≤ p) && decide (p < r.end_)

/-- Number of partitions `range.size()`. -/
def SeedPartitionRange.size (r : SeedPartitionRange) : Nat := r.end_ - r.begin_

/-! ## Merge iterator -/

/-- Modelled from the spec: the query cursor of `Merge_iterator` (missing header)
skips the groups whose key is below the key of the current reference group. -/
def skipBelow (k : Nat) : List Group → List Group
  | [] => []
  | q :: qs => if q.key < k then skipBelow k qs else q :: qs

/-- Modelled from the spec: the query group `merge_it.j` seen at a merged step of
`Merge_iterator` (missing header): the group sharing the key `k`, or an empty
group (count 0) when the query cursor does not stand on that key. -/
def curJ (k : Nat) : List Group → Group
  | [] => ⟨k, []⟩
  | q :: _ => if q.key = k then q else ⟨k, []⟩

/-- Modelled from the spec: the query cursor after `++merge_it` of `Merge_iterator`
(missing header): a matched query group is consumed together with the reference
group. -/
def advJ (k : Nat) : List Group → List Group
  | [] => []
  | q :: qs => if q.key = k then qs else q :: qs

/-- Modelled from the spec: the sequence of `(merge_it.i, merge_it.j)` seen by
`while (merge_it.next()) { ...; ++merge_it; }` for `Merge_iterator` (missing
header).  The join is driven by the reference cursor `i`; each merged step
yields the reference group and the query group (possibly empty) sharing its key. -/
def mergeVisits : List Group → List Group → List (Group × Group)
  | [], _ => []
  | g :: is, j =>
    (g, curJ g.key (skipBelow g.key j)) :: mergeVisits is (advJ g.key (skipBelow g.key j))

/-! ## Hash table sizing -/

/-- The constant `hash_table_factor = 1.3` as the double it denotes:
`5854679515581645 * 2 ^ (-52)` (bit pattern `0x3FF4CCCCCCCCCCCD`). -/
def hash_table_factor_mant : Nat := 5854679515581645

/-- Number of low bits of the exact product `P` (in units of `2 ^ (-52)`) that do
not fit the 53-bit significand of a double. -/
def excessBits : Nat → Nat → Nat
  | 0, _ => 0
  | f + 1, P => if P < 2 ^ 53 then 0 else excessBits f (P / 2) + 1

/-- Round `P / 2 ^ s` to the nearest integer, ties to even (the IEEE 754 default). -/
def roundNearestEven (P s : Nat) : Nat :=
  if 2 ^ s < 2 * (P % 2 ^ s) ∨ (2 * (P % 2 ^ s) = 2 ^ s ∧ (P / 2 ^ s) % 2 = 1)
  then P / 2 ^ s + 1 else P / 2 ^ s

/-- The expression `(size_t)(buf.size() * hash_table_factor)`: the size (exact as
a double below `2 ^ 53`) times the double `1.3`, correctly rounded, then
truncated by the cast. -/
def scaledSize (n : Nat) : Nat :=
  roundNearestEven (n * hash_table_factor_mant) (excessBits 64 (n * hash_table_factor_mant))
    * 2 ^ excessBits 64 (n * hash_table_factor_mant) / 2 ^ 52

/-- The value `ht_size = std::max((size_t)(buf.size() * hash_table_factor), buf.size() + 1)`. -/
def ht_size (n : Nat) : Nat := max (scaledSize n) (n + 1)

/-! ## Masked-key set -/

/-- Modelled from the spec: the open-addressed hash set `PHash_set` (header
missing) over seed-key values; `table` has `capacity` slots, `none` is an empty
slot. -/
structure PHash_set where
  table : List (Option Nat)
deriving DecidableEq

/-- Modelled from the spec: `PHash_set(size)` (header missing) allocates `size`
empty slots. -/
def PHash_set.new (size : Nat) : PHash_set := ⟨List.replicate size none⟩

/-- Modelled from the spec: the probe of the open-addressed `PHash_set` (header
missing): walk the slots cyclically from `pos` until an empty slot or the key is
met; `fuel` bounds the walk by the capacity. -/
def PHash_set.probe (hs : PHash_set) (key : Nat) : Nat → Nat → Option Nat
  | 0, _ => none
  | fuel + 1, pos =>
    match hs.table.getD pos none with
    | none => some pos
    | some k => if k = key then some pos else probe hs key fuel ((pos + 1) % hs.table.length)

/-- Modelled from the spec: the slot of `key` in `PHash_set` (header missing),
starting at the hashed position. -/
def PHash_set.get_entry (hash : Nat → Nat) (hs : PHash_set) (key : Nat) : Option Nat :=
  hs.probe key hs.table.length (hash key % hs.table.length)

/-- Modelled from the spec: `PHash_set::insert` (header missing). -/
def PHash_set.insert (hash : Nat → Nat) (hs : PHash_set) (key : Nat) : PHash_set :=
  match hs.get_entry hash key with
  | some pos => ⟨hs.table.set pos (some key)⟩
  | none => hs

/-- Modelled from the spec: the membership query `PHash_set::contains` (header
missing). -/
def PHash_set.contains (hash : Nat → Nat) (hs : PHash_set) (key : Nat) : Bool :=
  match hs.get_entry hash key with
  | some pos => (hs.table.getD pos none).isSome
  | none => false

/-- Lines 90-94 and 174-178: size the set from the number of collected keys and
insert every collected key. -/
def make_hash_set (hash : Nat → Nat) (buf : List Nat) : PHash_set :=
  buf.foldl (PHash_set.insert hash) (PHash_set.new (ht_size buf.length))

/-! ## Build pass, merge-join variant -/

/-- The locals `buf` and `n` of `operator()`. -/
structure LoopState where
  buf : List Nat
  n : Nat
deriving DecidableEq

/-- Lines 74-88: the body of the merge loop over the visited `(i, j)` pairs.
Returns the reference groups after the writes, and the locals. -/
def Build_context.loop (ref_max_n query_max_n : Nat) :
    List (Group × Group) → LoopState → List Group × LoopState
  | [], st => ([], st)
  | (i, j) :: rest, st =>
    if ref_max_n < i.n ∨ query_max_n < j.n then
      let r := Build_context.loop ref_max_n query_max_n rest
        ⟨st.buf ++ [i.key], (st.n + i.n % 2 ^ 32) % 2 ^ 64⟩
      (⟨i.key, zeroFirst i.recs⟩ :: r.1, r.2)
    else
      let r := Build_context.loop ref_max_n query_max_n rest st
      (i :: r.1, r.2)

/-- The members of `Build_context` that are read only. -/
structure Build_context where
  query_idx : Nat → List Group
  range : SeedPartitionRange
  sid : Nat
  ref_max_n : Nat
  query_max_n : Nat

/-- The state written by the merge-join build pass: the registry `tables_`, the
reference index (per partition) and the vector `counts`. -/
structure World where
  tables : Nat → Nat → PHash_set
  ref_idx : Nat → List Group
  counts : List Nat

/-- Assignment `tables_[sid][seedp] = hash_set`. -/
def setTable (t : Nat → Nat → PHash_set) (sid seedp : Nat) (hs : PHash_set) :
    Nat → Nat → PHash_set :=
  fun s p => if s = sid ∧ p = seedp then hs else t s p

/-- Replace the groups of one partition of an index. -/
def setPartition (idx : Nat → List Group) (seedp : Nat) (gs : List Group) : Nat → List Group :=
  fun p => if p = seedp then gs else idx p

/-- Lines 66-98: `Build_context::operator()(thread_id, seedp)`. -/
def Build_context.call (hash : Nat → Nat) (ctx : Build_context) (seedp : Nat) (w : World) :
    World :=
  if !ctx.range.contains seedp then w
  else
    let r := Build_context.loop ctx.ref_max_n ctx.query_max_n
      (mergeVisits (w.ref_idx seedp) (ctx.query_idx seedp)) ⟨[], 0⟩
    { tables := setTable w.tables ctx.sid seedp (make_hash_set hash r.2.buf)
      ref_idx := setPartition w.ref_idx seedp r.1
      counts := w.counts.set seedp (r.2.n % 2 ^ 32) }

/-- Modelled from the spec: `launch_scheduled_thread_pool(ctx, Const::seedp, threads)`
(header missing) calls the context once for every partition id below
`Const::seedp`; the partitions are independent, so the calls are taken in
ascending order. -/
def launch_scheduled_thread_pool {σ : Type} (f : Nat → σ → σ) (Const_seedp : Nat) (w : σ) : σ :=
  (List.range Const_seedp).foldl (fun acc p => f p acc) w

/-- Lines 119-121: the build pass of `build(sid, range, ref_idx, query_idx)` for
given cutoffs. -/
def build_pass (hash : Nat → Nat) (Const_seedp : Nat) (ctx : Build_context)
    (tables : Nat → Nat → PHash_set) (ref_idx : Nat → List Group) : World :=
  launch_scheduled_thread_pool (Build_context.call hash ctx) Const_seedp
    ⟨tables, ref_idx, List.replicate Const_seedp 0⟩

/-- Line 122: `std::accumulate(counts.begin(), counts.end(), 0)`; the accumulator
has type `int`, so the logged value is the sum reduced to 32 bits and read as a
signed number. -/
def masked_positions (counts : List Nat) : Int :=
  if counts.sum % 2 ^ 32 < 2 ^ 31 then (counts.sum % 2 ^ 32 : Nat)
  else ((counts.sum % 2 ^ 32 : Nat) : Int) - 2 ^ 32

/-! ## Build pass, pre-joined variant -/

/-- Modelled from the spec: one element of a `JoinResult` (header missing), a
matched pair of occurrence ranges: `r` on the query side and `s` on the
reference side (`s` is the side whose records are written). -/
structure JoinPair where
  r : List Nat
  s : List Nat
deriving DecidableEq

/-- Lines 157-172: the loop over the pre-joined pairs of one partition.
`seed_key q` stands for `seed_partition_offset` of the seed that
`shapes[sid].set_seed` reads at query position `q`. -/
def Build_context2.loop (seed_key : Nat → Nat) (ref_max_n query_max_n : Nat) :
    List JoinPair → LoopState → List JoinPair × LoopState
  | [], st => ([], st)
  | it :: rest, st =>
    if ref_max_n < it.s.length ∨ query_max_n < it.r.length then
      let r := Build_context2.loop seed_key ref_max_n query_max_n rest
        ⟨st.buf ++ [seed_key (it.r.getD 0 0)], (st.n + it.s.length % 2 ^ 32) % 2 ^ 64⟩
      (⟨it.r, zeroFirst it.s⟩ :: r.1, r.2)
    else
      let r := Build_context2.loop seed_key ref_max_n query_max_n rest st
      (it :: r.1, r.2)

/-- The members of `Build_context2` that are read only. -/
structure Build_context2 where
  range : SeedPartitionRange
  sid : Nat
  ref_max_n : Nat
  query_max_n : Nat

/-- The state written by the pre-joined build pass. -/
structure World2 where
  tables : Nat → Nat → PHash_set
  seed_hits : List (List JoinPair)
  counts : List Nat

/-- Lines 150-182: `Build_context2::operator()(thread_id, seedp)`; `seed_key sid q`
is the key derived for shape `sid` at query position `q`. -/
def Build_context2.call (hash : Nat → Nat) (seed_key : Nat → Nat → Nat) (ctx : Build_context2)
    (seedp : Nat) (w : World2) : World2 :=
  if !ctx.range.contains seedp then w
  else
    let r := Build_context2.loop (seed_key ctx.sid) ctx.ref_max_n ctx.query_max_n
      (w.seed_hits.getD (seedp - ctx.range.begin_) []) ⟨[], 0⟩
    { tables := setTable w.tables ctx.sid seedp (make_hash_set hash r.2.buf)
      seed_hits := w.seed_hits.set (seedp - ctx.range.begin_) r.1
      counts := w.counts.set seedp (r.2.n % 2 ^ 32) }

/-- Lines 202-204: the build pass of `build(sid, range, seed_hits)` for given cutoffs. -/
def build_pass2 (hash : Nat → Nat) (seed_key : Nat → Nat → Nat) (Const_seedp : Nat)
    (ctx : Build_context2) (tables : Nat → Nat → PHash_set) (seed_hits : List (List JoinPair)) :
    World2 :=
  launch_scheduled_thread_pool (Build_context2.call hash seed_key ctx) Const_seedp
    ⟨tables, seed_hits, List.replicate Const_seedp 0⟩

/-! ## Auxiliary notions used in the statements -/

/-- The classification test of lines 75 and 158. -/
def frequent (ref_max_n query_max_n rn qn : Nat) : Bool :=
  decide (ref_max_n < rn) || decide (query_max_n < qn)

/-- The running total `n` after adding the counts `cs` one by one (`n += (unsigned)count`). -/
def tally (n : Nat) (cs : List Nat) : Nat :=
  cs.foldl (fun a c => (a + c % 2 ^ 32) % 2 ^ 64) n

/-- Every stored key is found by its own probe. -/
def PHash_set.Inv (hash : Nat → Nat) (hs : PHash_set) : Prop :=
  ∀ pos k, hs.table.getD pos none = some k → hs.get_entry hash k = some pos

/-- Number of occupied slots. -/
def PHash_set.used (hs : PHash_set) : Nat := hs.table.countP Option.isSome

/-! ## The concrete scenario of the specification -/

/-- Reference groups with counts 5, 200 and 3. -/
def scenario_ref : List Group :=
  [⟨10, List.replicate 5 7⟩, ⟨11, List.replicate 200 7⟩, ⟨12, List.replicate 3 7⟩]

/-- Query groups with counts 1, 2 and 9 on the same keys. -/
def scenario_query : List Group :=
  [⟨10, List.replicate 1 4⟩, ⟨11, List.replicate 2 5⟩, ⟨12, List.replicate 9 6⟩]

/-- Cutoffs `(50, 20)` on the single-partition range `[0, 1)`. -/
def scenario_ctx : Build_context := ⟨fun _ => scenario_query, ⟨0, 1⟩, 0, 50, 20⟩

/-- Initial state of the scenario, merge-join variant. -/
def scenario_world : World := ⟨fun _ _ => PHash_set.new 0, fun _ => scenario_ref, [0]⟩

/-- The scenario as a pre-joined hit list. -/
def scenario_hits : List JoinPair :=
  [⟨List.replicate 1 4, List.replicate 5 7⟩, ⟨List.replicate 2 5, List.replicate 200 7⟩,
   ⟨List.replicate 9 6, List.replicate 3 7⟩]

/-- Key derivation of the scenario: query position `q` carries key `q + 6`. -/
def scenario_key (_sid q : Nat) : Nat := q + 6

/-- Cutoffs `(50, 20)` on the range `[0, 1)`, pre-joined variant. -/
def scenario_ctx2 : Build_context2 := ⟨⟨0, 1⟩, 0, 50, 20⟩

/-- Initial state of the scenario, pre-joined variant. -/
def scenario_world2 : World2 := ⟨fun _ _ => PHash_set.new 0, [scenario_hits], [0]⟩

/-- The pairing in the words of the specification: the query group of the same
key, or an empty group (count 0) when the query index holds no such key. -/
def queryGroup (query : List Group) (k : Nat) : Group :=
  (query.find? (fun q => decide (q.key = k))).getD ⟨k, []⟩

/-- A partition of a sorted index: keys strictly ascending. -/
def KeysAscending (gs : List Group) : Prop := gs.Pairwise (fun a b => a.key < b.key)

instance (gs : List Group) : Decidable (KeysAscending gs) := by
  unfold KeysAscending; infer_instance

/-- A reference partition whose key 3 has no query-side group. -/
def lonely_ref : List Group := [⟨3, [7, 8, 9]⟩, ⟨5, [6]⟩]

/-- The query partition matching `lonely_ref` on key 5 only. -/
def lonely_query : List Group := [⟨4, [1]⟩, ⟨5, [2]⟩]

/-- Cutoffs `(2, 5)` on the range `[0, 1)`. -/
def lonely_ctx : Build_context := ⟨fun _ => lonely_query, ⟨0, 1⟩, 0, 2, 5⟩

/-- An empty registry. -/
def empty_tables : Nat → Nat → PHash_set := fun _ _ => PHash_set.new 0

/-- Number of reference records of a partition whose value is the sentinel zero. -/
def zeroRecords (gs : List Group) : Nat := (gs.map (fun g => g.recs.count 0)).sum

/-- Number of reference-side records of a hit list whose value is zero. -/
def zeroRecords2 (hits : List JoinPair) : Nat := (hits.map (fun it => it.s.count 0)).sum

/-- Modelled from the spec: the statistics accumulator `Sd` (header missing),
represented by the samples added to it so far; a default-constructed accumulator
has none.  Its mean and standard deviation are functions of these samples. -/
abbrev Sd := List Nat

/-- Lines 37-42 and 45-50: one sample `it.n` per group of the partition. -/
def partition_sd (gs : List Group) : Sd := gs.map Group.n

/-- The shared cursor `*seedp`, the two output vectors, and the trace of the
partition ids for which the loop body of `compute_sd` ran. -/
structure StatState where
  seedp : Nat
  ref_out : List Sd
  query_out : List Sd
  claimed : List Nat
deriving DecidableEq

/-- Lines 36-52: one turn of the loop of `compute_sd` in a worker: the atomic
post-increment of the cursor, the test against `current_range.end()` and, when it
passes, the body writing slot `p - current_range.begin()` (unsigned arithmetic).
The result is `none` when the slot lies outside a vector (the write is undefined
behaviour); the flag tells whether the worker goes on. -/
def compute_sd_turn (current_range : SeedPartitionRange) (ref_idx query_idx : Nat → List Group)
    (st : StatState) : Option (StatState × Bool) :=
  if st.seedp < current_range.end_ then
    if (st.seedp + 2 ^ 32 - current_range.begin_) % 2 ^ 32 < st.ref_out.length ∧
        (st.seedp + 2 ^ 32 - current_range.begin_) % 2 ^ 32 < st.query_out.length then
      some ({ seedp := (st.seedp + 1) % 2 ^ 32
              ref_out := st.ref_out.set ((st.seedp + 2 ^ 32 - current_range.begin_) % 2 ^ 32)
                (partition_sd (ref_idx st.seedp))
              query_out := st.query_out.set ((st.seedp + 2 ^ 32 - current_range.begin_) % 2 ^ 32)
                (partition_sd (query_idx st.seedp))
              claimed := st.claimed ++ [st.seedp] }, true)
    else none
  else some ({ st with seedp := (st.seedp + 1) % 2 ^ 32 }, false)

/-- The workers launched at lines 111-113, run under a schedule: each entry names
the worker that takes the next turn; a worker whose test failed has returned and
takes no further turn.  `finished` lists the workers that have returned. -/
def run_workers (current_range : SeedPartitionRange) (ref_idx query_idx : Nat → List Group)
    (threads : Nat) : List Nat → StatState × List Nat → Option (StatState × List Nat)
  | [], s => some s
  | t :: ts, (st, finished) =>
    if t < threads ∧ t ∉ finished then
      match compute_sd_turn current_range ref_idx query_idx st with
      | none => none
      | some (st2, true) => run_workers current_range ref_idx query_idx threads ts (st2, finished)
      | some (st2, false) =>
        run_workers current_range ref_idx query_idx threads ts (st2, t :: finished)
    else run_workers current_range ref_idx query_idx threads ts (st, finished)

/-- Lines 108-113: the statistics pass of `build(sid, range, ...)`: vectors of
`range.size()` accumulators, cursor at `range.begin()`, the workers reading the
global `current_range`. -/
def statistics_pass (current_range range : SeedPartitionRange)
    (ref_idx query_idx : Nat → List Group) (threads : Nat) (schedule : List Nat) :
    Option (StatState × List Nat) :=
  run_workers current_range ref_idx query_idx threads schedule
    (⟨range.begin_, List.replicate range.size [], List.replicate range.size [], []⟩, [])

/-- The state of the statistics pass over its own range `r` is consistent: the
cursor has advanced once per claimed partition and once per returned worker, the
claimed ids are `begin, begin + 1, ...` in order and stay below `end`, a worker
has returned only after all of them were claimed, and slot `i` holds the samples
of partition `begin + i` once that partition was claimed. -/
def StatInv (r : SeedPartitionRange) (ref_idx query_idx : Nat → List Group) (threads : Nat)
    (s : StatState × List Nat) : Prop :=
  s.2.Nodup ∧ (∀ t ∈ s.2, t < threads) ∧
  s.1.seedp = r.begin_ + s.1.claimed.length + s.2.length ∧
  s.1.claimed = List.range' r.begin_ s.1.claimed.length ∧
  r.begin_ + s.1.claimed.length ≤ r.end_ ∧
  (s.2 ≠ [] → r.begin_ + s.1.claimed.length = r.end_) ∧
  s.1.ref_out.length = r.size ∧ s.1.query_out.length = r.size ∧
  (∀ i, i < s.1.claimed.length →
    s.1.ref_out.getD i [] = partition_sd (ref_idx (r.begin_ + i)) ∧
    s.1.query_out.getD i [] = partition_sd (query_idx (r.begin_ + i)))

/-- Modelled from the spec: `launch_scheduled_thread_pool` (header missing) under an
arbitrary assignment of partitions to workers: the calls are made in the order
`order`, a rearrangement of the partition ids below `Const::seedp`. -/
def launch_in_order {σ : Type} (f : Nat → σ → σ) (order : List Nat) (w : σ) : σ :=
  order.foldl (fun acc p => f p acc) w

/-! ## Notions used for the counter and for the comparison of the variants -/

/-- The value of the `int` accumulator of `std::accumulate` after summing to `s`:
the sum reduced to 32 bits and read as a signed number. -/
def int_of_sum (s : Nat) : Int :=
  if s % 2 ^ 32 < 2 ^ 31 then (s % 2 ^ 32 : Nat) else ((s % 2 ^ 32 : Nat) : Int) - 2 ^ 32

/-- Total number of reference records in the groups of partition `p` that the
merge-join pass classifies frequent. -/
def masked_total (ctx : Build_context) (ref_idx : Nat → List Group) (p : Nat) : Nat :=
  (((mergeVisits (ref_idx p) (ctx.query_idx p)).filter
    (fun v => decide (ctx.ref_max_n < v.1.n ∨ ctx.query_max_n < v.2.n))).map
    (fun v => v.1.n)).sum

/-- Total number of reference records in the pairs of partition `p` that the
pre-joined pass classifies frequent. -/
def masked_total2 (ctx : Build_context2) (seed_hits : List (List JoinPair)) (p : Nat) : Nat :=
  (((seed_hits.getD (p - ctx.range.begin_) []).filter
    (fun it => decide (ctx.ref_max_n < it.s.length ∨ ctx.query_max_n < it.r.length))).map
    (fun it => it.s.length)).sum

/-- One reference group of three records. -/
def single_ref : List Group := [⟨5, [7, 8, 9]⟩]

/-- The query group of the same key, one record. -/
def single_query : List Group := [⟨5, [2]⟩]

/-- Cutoffs `(2, 5)` on the range `[0, 1)` over `single_query`. -/
def single_ctx : Build_context := ⟨fun _ => single_query, ⟨0, 1⟩, 0, 2, 5⟩

/-- The same matched pair as a pre-joined hit list. -/
def single_hits : List (List JoinPair) := [[⟨[2], [7, 8, 9]⟩]]

/-- Cutoffs `(2, 5)` on the range `[0, 1)`, pre-joined variant. -/
def single_ctx2 : Build_context2 := ⟨⟨0, 1⟩, 0, 2, 5⟩

/-- Round the integer `P` to 53 significant bits, ties to even: the rounding every
double operation applies to its exact result. -/
def round53 (P : Nat) : Nat :=
  roundNearestEven P (excessBits 8192 P) * 2 ^ excessBits 8192 P

/-- A finite non-negative double is an integer multiple of `2 ^ (-1074)` with at
most 53 significant bits; it is represented by that multiple. -/
def IsDouble (a : Nat) : Prop := round53 a = a

instance (a : Nat) : Decidable (IsDouble a) := by
  unfold IsDouble; infer_instance

/-- The real number a represented double stands for. -/
def toRat (a : Nat) : ℚ := (a : ℚ) / ((2 ^ 1074 : ℕ) : ℚ)

/-- The double sum `a + b`: the exact sum, rounded. -/
def fadd (a b : Nat) : Nat := round53 (a + b)

/-- The double product `a * b`: the exact product, in units of `2 ^ (-2148)`,
rounded (ties to even) to 53 significant bits and, for results in the subnormal
range, to a multiple of `2 ^ (-1074)`. -/
def fmul (a b : Nat) : Nat :=
  roundNearestEven (a * b) (max (excessBits 8192 (a * b)) 1074)
    * 2 ^ (max (excessBits 8192 (a * b)) 1074 - 1074)

/-- The cast `(unsigned)x` of a non-negative double: the integer part, defined when
it fits 32 bits. -/
def to_unsigned (a : Nat) : Option Nat :=
  if a / 2 ^ 1074 < 2 ^ 32 then some (a / 2 ^ 1074) else none

/-- Lines 116 and 199: `(unsigned)(sd.mean() + config.freq_sd * sd.sd())`, with the
finite non-negative doubles returned by `Sd::mean` and `Sd::sd` and the
multiplier `config.freq_sd` as parameters: the product is rounded, the sum is
rounded, the cast truncates. -/
def max_n (mean sd freq_sd : Nat) : Option Nat :=
  to_unsigned (fadd mean (fmul freq_sd sd))

/-- The double 1.5. -/
def dbl_three_halves : Nat := 3 * 2 ^ 1073

/-- The double 0.5. -/
def dbl_half : Nat := 2 ^ 1073

/-- The double `1 - 2 ^ (-52)`. -/
def dbl_below_one : Nat := (2 ^ 52 - 1) * 2 ^ 1022

/-! # Theorems -/

/-! ## Closed forms of the two loops -/

theorem loop_closed (rm qm : Nat) (ps : List (Group × Group)) (st : LoopState) :
    Build_context.loop rm qm ps st =
      (ps.map (fun p => if frequent rm qm p.1.n p.2.n then ⟨p.1.key, zeroFirst p.1.recs⟩ else p.1),
       ⟨st.buf ++ (ps.filter (fun p => frequent rm qm p.1.n p.2.n)).map (fun p => p.1.key),
        tally st.n ((ps.filter (fun p => frequent rm qm p.1.n p.2.n)).map (fun p => p.1.n))⟩) := by
  induction ps generalizing st with
  | nil => simp [Build_context.loop, tally]
  | cons p rest ih =>
    obtain ⟨i, j⟩ := p
    by_cases h : rm < i.n ∨ qm < j.n
    · have hf : frequent rm qm i.n j.n = true := by simpa [frequent] using h
      simp [Build_context.loop, h, hf, ih, tally]
    · have hf : frequent rm qm i.n j.n = false := by simpa [frequent] using h
      simp [Build_context.loop, h, hf, ih]

theorem loop2_closed (sk : Nat → Nat) (rm qm : Nat) (ps : List JoinPair) (st : LoopState) :
    Build_context2.loop sk rm qm ps st =
      (ps.map (fun p => if frequent rm qm p.s.length p.r.length then ⟨p.r, zeroFirst p.s⟩ else p),
       ⟨st.buf ++ (ps.filter (fun p => frequent rm qm p.s.length p.r.length)).map
          (fun p => sk (p.r.getD 0 0)),
        tally st.n ((ps.filter (fun p => frequent rm qm p.s.length p.r.length)).map
          (fun p => p.s.length))⟩) := by
  induction ps generalizing st with
  | nil => simp [Build_context2.loop, tally]
  | cons p rest ih =>
    by_cases h : rm < p.s.length ∨ qm < p.r.length
    · have hf : frequent rm qm p.s.length p.r.length = true := by simpa [frequent] using h
      simp [Build_context2.loop, h, hf, ih, tally]
    · have hf : frequent rm qm p.s.length p.r.length = false := by simpa [frequent] using h
      simp [Build_context2.loop, h, hf, ih]

theorem tally_mod (n : Nat) (cs : List Nat) :
    tally n cs % 2 ^ 32 = (n + cs.sum) % 2 ^ 32 := by
  induction cs generalizing n with
  | nil => simp [tally]
  | cons c cs ih =>
    have : tally n (c :: cs) = tally ((n + c % 2 ^ 32) % 2 ^ 64) cs := by simp [tally]
    rw [this, ih]
    simp only [List.sum_cons]
    omega

/-! ## The build passes, partition by partition -/

theorem call_in_range (hash : Nat → Nat) (ctx : Build_context) (seedp : Nat) (w : World)
    (h : ctx.range.contains seedp = true) :
    Build_context.call hash ctx seedp w =
      { tables := setTable w.tables ctx.sid seedp (make_hash_set hash
          (Build_context.loop ctx.ref_max_n ctx.query_max_n
            (mergeVisits (w.ref_idx seedp) (ctx.query_idx seedp)) ⟨[], 0⟩).2.buf)
        ref_idx := setPartition w.ref_idx seedp
          (Build_context.loop ctx.ref_max_n ctx.query_max_n
            (mergeVisits (w.ref_idx seedp) (ctx.query_idx seedp)) ⟨[], 0⟩).1
        counts := w.counts.set seedp
          ((Build_context.loop ctx.ref_max_n ctx.query_max_n
            (mergeVisits (w.ref_idx seedp) (ctx.query_idx seedp)) ⟨[], 0⟩).2.n % 2 ^ 32) } := by
  simp [Build_context.call, h]

theorem call_out_of_range (hash : Nat → Nat) (ctx : Build_context) (seedp : Nat) (w : World)
    (h : ctx.range.contains seedp = false) :
    Build_context.call hash ctx seedp w = w := by
  simp [Build_context.call, h]

theorem pool_succ {σ : Type} (f : Nat → σ → σ) (k : Nat) (w : σ) :
    launch_scheduled_thread_pool f (k + 1) w = f k (launch_scheduled_thread_pool f k w) := by
  simp [launch_scheduled_thread_pool, List.range_succ, List.foldl_append]

/-- State of the merge-join pass after the partitions below `k` have been handled. -/
theorem pool_invariant (hash : Nat → Nat) (ctx : Build_context) (w : World) (k : Nat) :
    (launch_scheduled_thread_pool (Build_context.call hash ctx) k w).counts.length
        = w.counts.length ∧
    ∀ p,
      (p < k ∧ ctx.range.contains p = true →
        (launch_scheduled_thread_pool (Build_context.call hash ctx) k w).ref_idx p
            = (Build_context.call hash ctx p w).ref_idx p ∧
        (∀ s, (launch_scheduled_thread_pool (Build_context.call hash ctx) k w).tables s p
            = (Build_context.call hash ctx p w).tables s p) ∧
        (launch_scheduled_thread_pool (Build_context.call hash ctx) k w).counts.getD p 0
            = (Build_context.call hash ctx p w).counts.getD p 0) ∧
      (¬ (p < k ∧ ctx.range.contains p = true) →
        (launch_scheduled_thread_pool (Build_context.call hash ctx) k w).ref_idx p = w.ref_idx p ∧
        (∀ s, (launch_scheduled_thread_pool (Build_context.call hash ctx) k w).tables s p
            = w.tables s p) ∧
        (launch_scheduled_thread_pool (Build_context.call hash ctx) k w).counts.getD p 0
            = w.counts.getD p 0) := by
  induction k with
  | zero =>
    simp [launch_scheduled_thread_pool]
  | succ k ih =>
    rw [pool_succ]
    obtain ⟨hlen, ih⟩ := ih
    generalize launch_scheduled_thread_pool (Build_context.call hash ctx) k w = W at hlen ih ⊢
    by_cases hk : ctx.range.contains k = true
    · rw [call_in_range hash ctx k W hk]
      refine ⟨by simp [hlen], fun p => ?_⟩
      by_cases hp : p = k
      · subst hp
        have h0 := (ih p).2 (by omega)
        refine ⟨fun _ => ?_, fun hn => absurd ⟨Nat.lt_succ_self p, hk⟩ hn⟩
        rw [call_in_range hash ctx p w hk]
        simp only [setPartition, setTable, if_true, and_true, h0.1]
        refine ⟨trivial, fun s => ?_, ?_⟩
        · by_cases hs : s = ctx.sid
          · simp [hs, h0.1]
          · simp [hs, h0.2.1 s]
        · simp only [List.getD_eq_getElem?_getD, List.getElem?_set]
          simp only [if_true, hlen]
      · have hlt : (p < k + 1) = (p < k) := by
          apply propext; constructor <;> intro h <;> omega
        simp only [setPartition, setTable, hp, if_false, and_false, hlt]
        have hne : k ≠ p := fun h => hp h.symm
        simp only [List.getD_eq_getElem?_getD, List.getElem?_set, hne, if_false]
        simpa [List.getD_eq_getElem?_getD] using ih p
    · have hk : ctx.range.contains k = false := by simpa using hk
      rw [call_out_of_range hash ctx k W hk]
      refine ⟨hlen, fun p => ?_⟩
      by_cases hp : p = k
      · subst hp
        have h0 := (ih p).2 (by omega)
        refine ⟨fun h => ?_, fun _ => h0⟩
        rw [hk] at h
        exact absurd h.2 (by simp)
      · have hlt : (p < k + 1) = (p < k) := by
          apply propext; constructor <;> intro h <;> omega
        rw [hlt]
        exact ih p
theorem call2_in_range (hash : Nat → Nat) (sk : Nat → Nat → Nat) (ctx : Build_context2)
    (seedp : Nat) (w : World2) (h : ctx.range.contains seedp = true) :
    Build_context2.call hash sk ctx seedp w =
      { tables := setTable w.tables ctx.sid seedp (make_hash_set hash
          (Build_context2.loop (sk ctx.sid) ctx.ref_max_n ctx.query_max_n
            (w.seed_hits.getD (seedp - ctx.range.begin_) []) ⟨[], 0⟩).2.buf)
        seed_hits := w.seed_hits.set (seedp - ctx.range.begin_)
          (Build_context2.loop (sk ctx.sid) ctx.ref_max_n ctx.query_max_n
            (w.seed_hits.getD (seedp - ctx.range.begin_) []) ⟨[], 0⟩).1
        counts := w.counts.set seedp
          ((Build_context2.loop (sk ctx.sid) ctx.ref_max_n ctx.query_max_n
            (w.seed_hits.getD (seedp - ctx.range.begin_) []) ⟨[], 0⟩).2.n % 2 ^ 32) } := by
  simp [Build_context2.call, h]

theorem call2_out_of_range (hash : Nat → Nat) (sk : Nat → Nat → Nat) (ctx : Build_context2)
    (seedp : Nat) (w : World2) (h : ctx.range.contains seedp = false) :
    Build_context2.call hash sk ctx seedp w = w := by
  simp [Build_context2.call, h]

theorem contains_iff (r : SeedPartitionRange) (p : Nat) :
    r.contains p = true ↔ r.begin_ ≤ p ∧ p < r.end_ := by
  simp [SeedPartitionRange.contains]

/-- State of the pre-joined pass after the partitions below `k` have been handled. -/
theorem pool_invariant2 (hash : Nat → Nat) (sk : Nat → Nat → Nat) (ctx : Build_context2)
    (w : World2) (k : Nat) :
    (launch_scheduled_thread_pool (Build_context2.call hash sk ctx) k w).counts.length
        = w.counts.length ∧
    (launch_scheduled_thread_pool (Build_context2.call hash sk ctx) k w).seed_hits.length
        = w.seed_hits.length ∧
    (∀ p,
      (p < k ∧ ctx.range.contains p = true →
        (launch_scheduled_thread_pool (Build_context2.call hash sk ctx) k w).seed_hits.getD
            (p - ctx.range.begin_) []
          = (Build_context2.call hash sk ctx p w).seed_hits.getD (p - ctx.range.begin_) [] ∧
        (∀ s, (launch_scheduled_thread_pool (Build_context2.call hash sk ctx) k w).tables s p
            = (Build_context2.call hash sk ctx p w).tables s p) ∧
        (launch_scheduled_thread_pool (Build_context2.call hash sk ctx) k w).counts.getD p 0
            = (Build_context2.call hash sk ctx p w).counts.getD p 0) ∧
      (¬ (p < k ∧ ctx.range.contains p = true) →
        (∀ s, (launch_scheduled_thread_pool (Build_context2.call hash sk ctx) k w).tables s p
            = w.tables s p) ∧
        (launch_scheduled_thread_pool (Build_context2.call hash sk ctx) k w).counts.getD p 0
            = w.counts.getD p 0)) ∧
    (∀ i, ¬ (ctx.range.begin_ + i < k ∧ ctx.range.begin_ + i < ctx.range.end_) →
      (launch_scheduled_thread_pool (Build_context2.call hash sk ctx) k w).seed_hits.getD i []
        = w.seed_hits.getD i []) := by
  induction k with
  | zero =>
    simp [launch_scheduled_thread_pool]
  | succ k ih =>
    rw [pool_succ]
    obtain ⟨hlen, hlen2, ih, ihs⟩ := ih
    generalize launch_scheduled_thread_pool (Build_context2.call hash sk ctx) k w = W
      at hlen hlen2 ih ihs ⊢
    by_cases hk : ctx.range.contains k = true
    · have hkr := (contains_iff _ _).1 hk
      have hread : W.seed_hits.getD (k - ctx.range.begin_) []
          = w.seed_hits.getD (k - ctx.range.begin_) [] := by
        apply ihs
        intro h
        omega
      rw [call2_in_range hash sk ctx k W hk]
      refine ⟨by simp [hlen], by simp [hlen2], fun p => ?_, fun i hi => ?_⟩
      · by_cases hp : p = k
        · subst hp
          have h0 := (ih p).2 (by omega)
          refine ⟨fun _ => ?_, fun hn => absurd ⟨Nat.lt_succ_self p, hk⟩ hn⟩
          rw [call2_in_range hash sk ctx p w hk]
          simp only [setTable, if_true, and_true, hread]
          refine ⟨?_, fun s => ?_, ?_⟩
          · simp only [List.getD_eq_getElem?_getD, List.getElem?_set]
            simp only [if_true, hlen2]
          · by_cases hs : s = ctx.sid
            · simp [hs]
            · simp [hs, h0.1 s]
          · simp only [List.getD_eq_getElem?_getD, List.getElem?_set]
            simp only [if_true, hlen]
        · have hlt : (p < k + 1) = (p < k) := by
            apply propext; constructor <;> intro h <;> omega
          simp only [setTable, hp, if_false, and_false, hlt]
          have hne : k ≠ p := fun h => hp h.symm
          refine ⟨fun hpr => ?_, fun hpr => ?_⟩
          · have hpr2 := (contains_iff _ _).1 hpr.2
            have hidx : k - ctx.range.begin_ ≠ p - ctx.range.begin_ := by omega
            simp only [List.getD_eq_getElem?_getD, List.getElem?_set, hne, hidx, if_false]
            simpa [List.getD_eq_getElem?_getD] using (ih p).1 hpr
          · simp only [List.getD_eq_getElem?_getD, List.getElem?_set, hne, if_false]
            simpa [List.getD_eq_getElem?_getD] using (ih p).2 hpr
      · have hidx : k - ctx.range.begin_ ≠ i := by
          intro h
          apply hi
          omega
        simp only [List.getD_eq_getElem?_getD, List.getElem?_set, hidx, if_false]
        have := ihs i (by intro h; apply hi; omega)
        simpa [List.getD_eq_getElem?_getD] using this
    · have hk : ctx.range.contains k = false := by simpa using hk
      have hkr : ¬ (ctx.range.begin_ ≤ k ∧ k < ctx.range.end_) := by
        rw [← contains_iff, hk]; simp
      rw [call2_out_of_range hash sk ctx k W hk]
      refine ⟨hlen, hlen2, fun p => ?_, fun i hi => ?_⟩
      · by_cases hp : p = k
        · subst hp
          have h0 := (ih p).2 (by omega)
          refine ⟨fun h => ?_, fun _ => h0⟩
          rw [hk] at h
          exact absurd h.2 (by simp)
        · have hlt : (p < k + 1) = (p < k) := by
            apply propext; constructor <;> intro h <;> omega
          rw [hlt]
          exact ih p
      · apply ihs
        intro h
        apply hi
        omega

/-! ## The open-addressed set -/

theorem getD_set_table (t : List (Option Nat)) (q pos : Nat) (v : Option Nat) :
    (t.set q v).getD pos none = if q = pos ∧ q < t.length then v else t.getD pos none := by
  simp only [List.getD_eq_getElem?_getD, List.getElem?_set]
  by_cases h : q = pos
  · subst h
    by_cases h2 : q < t.length
    · simp [h2]
    · simp [h2, List.getElem?_eq_none (Nat.le_of_not_lt h2)]
  · simp [h]

theorem getD_lt_of_some (t : List (Option Nat)) (pos k : Nat)
    (h : t.getD pos none = some k) : pos < t.length := by
  by_contra hc
  rw [List.getD_eq_getElem?_getD, List.getElem?_eq_none (Nat.le_of_not_lt hc)] at h
  simp at h

theorem probe_lt (hs : PHash_set) (k : Nat) (f pos r : Nat) (hpos : pos < hs.table.length)
    (h : hs.probe k f pos = some r) : r < hs.table.length := by
  induction f generalizing pos with
  | zero => simp [PHash_set.probe] at h
  | succ f ih =>
    rw [PHash_set.probe] at h
    split at h
    · simp at h; omega
    · split at h
      · simp at h; omega
      · exact ih _ (Nat.mod_lt _ (by omega)) h

theorem probe_result (hs : PHash_set) (k : Nat) (f pos r : Nat)
    (h : hs.probe k f pos = some r) :
    hs.table.getD r none = none ∨ hs.table.getD r none = some k := by
  induction f generalizing pos with
  | zero => simp [PHash_set.probe] at h
  | succ f ih =>
    rw [PHash_set.probe] at h
    split at h
    · rename_i he
      simp at h; subst h; exact Or.inl he
    · rename_i k2 he
      split at h
      · rename_i hk
        simp at h; subst h; subst hk; exact Or.inr he
      · exact ih _ h

/-- Filling an empty slot that a probe did not stop at leaves the probe unchanged. -/
theorem probe_set_other (hs : PHash_set) (k k2 : Nat) (f pos r q : Nat)
    (hq : hs.table.getD q none = none) (h : hs.probe k f pos = some r) (hrq : r ≠ q) :
    PHash_set.probe ⟨hs.table.set q (some k2)⟩ k f pos = some r := by
  induction f generalizing pos with
  | zero => simp [PHash_set.probe] at h
  | succ f ih =>
    rw [PHash_set.probe] at h
    rw [PHash_set.probe]
    simp only [getD_set_table, List.length_set]
    split at h
    · rename_i he
      simp at h; subst h
      have : ¬ (q = pos ∧ q < hs.table.length) := fun hc => hrq hc.1.symm
      simp only [this, if_false, he]
    · rename_i k3 he
      have hne : ¬ (q = pos ∧ q < hs.table.length) := by
        intro hc
        rw [hc.1] at hq
        rw [hq] at he
        simp at he
      simp only [hne, if_false, he]
      split at h
      · rename_i hk
        simp [hk]
        simpa using h
      · rename_i hk
        simp only [hk, if_false]
        exact ih _ h

/-- Filling the empty slot a probe stopped at makes the probe stop there on the key. -/
theorem probe_set_self (hs : PHash_set) (k : Nat) (f pos q : Nat)
    (hq : hs.table.getD q none = none) (hlt : q < hs.table.length)
    (h : hs.probe k f pos = some q) :
    PHash_set.probe ⟨hs.table.set q (some k)⟩ k f pos = some q := by
  induction f generalizing pos with
  | zero => simp [PHash_set.probe] at h
  | succ f ih =>
    rw [PHash_set.probe] at h
    rw [PHash_set.probe]
    simp only [getD_set_table, List.length_set]
    split at h
    · simp at h; subst h
      simp [hlt]
    · rename_i k3 he
      have hne : ¬ (q = pos ∧ q < hs.table.length) := by
        intro hc
        rw [hc.1] at hq
        rw [hq] at he
        simp at he
      simp only [hne, if_false, he]
      split at h
      · rename_i hk
        simp at h; subst h
        rw [hq] at he
        simp at he
      · rename_i hk
        simp only [hk, if_false]
        exact ih _ h

theorem insert_table (hash : Nat → Nat) (hs : PHash_set) (k pos : Nat)
    (h : hs.get_entry hash k = some pos) :
    (hs.insert hash k).table = hs.table.set pos (some k) := by
  simp [PHash_set.insert, h]

theorem insert_length (hash : Nat → Nat) (hs : PHash_set) (k : Nat) :
    (hs.insert hash k).table.length = hs.table.length := by
  unfold PHash_set.insert
  split <;> simp

theorem insert_inv (hash : Nat → Nat) (hs : PHash_set) (k : Nat)
    (hinv : hs.Inv hash) : (hs.insert hash k).Inv hash := by
  cases hge : hs.get_entry hash k with
  | none => simpa [PHash_set.insert, hge] using hinv
  | some q =>
    have hL : 0 < hs.table.length := by
      by_contra hc
      have : hs.table.length = 0 := by omega
      simp [PHash_set.get_entry, this, PHash_set.probe] at hge
    have hqlt : q < hs.table.length :=
      probe_lt hs k _ _ q (Nat.mod_lt _ hL) hge
    have htab : (hs.insert hash k) = ⟨hs.table.set q (some k)⟩ := by
      simp [PHash_set.insert, hge]
    rw [htab]
    rcases probe_result hs k _ _ q hge with hq | hq
    · intro pos k2 hget
      simp only [getD_set_table] at hget
      simp only [PHash_set.get_entry, List.length_set]
      by_cases hc : q = pos ∧ q < hs.table.length
      · rw [if_pos hc] at hget
        have hk : k = k2 := by simpa using hget
        subst hk
        rw [← hc.1]
        exact probe_set_self hs k _ _ q hq hqlt hge
      · rw [if_neg hc] at hget
        have h1 := hinv pos k2 hget
        refine probe_set_other hs k2 k _ _ pos q hq h1 ?_
        intro hpq
        rw [hpq, hq] at hget
        simp at hget
    · have hsame : hs.table.set q (some k) = hs.table := by
        apply List.ext_getElem?
        intro i
        rw [List.getElem?_set]
        by_cases hi : q = i
        · subst hi
          simp only [if_true, hqlt]
          rw [List.getD_eq_getElem?_getD] at hq
          rw [List.getElem?_eq_getElem hqlt] at hq ⊢
          simp at hq
          simp [hq]
        · simp [hi]
      rw [hsame]
      exact hinv

theorem contains_iff_stored (hash : Nat → Nat) (hs : PHash_set) (k : Nat)
    (hinv : hs.Inv hash) :
    hs.contains hash k = true ↔ ∃ pos, hs.table.getD pos none = some k := by
  constructor
  · intro h
    unfold PHash_set.contains at h
    split at h
    · rename_i pos hge
      rcases probe_result hs k _ _ pos hge with hq | hq
      · rw [hq] at h; simp at h
      · exact ⟨pos, hq⟩
    · simp at h
  · rintro ⟨pos, hpos⟩
    have := hinv pos k hpos
    unfold PHash_set.contains
    rw [this]
    simp only [hpos, Option.isSome_some]
/-- A probe that gives up has seen only occupied slots. -/
theorem probe_none_occupied (hs : PHash_set) (k : Nat) (f pos : Nat)
    (hpos : pos < hs.table.length) (h : hs.probe k f pos = none) :
    ∀ i, i < f → hs.table.getD ((pos + i) % hs.table.length) none ≠ none := by
  induction f generalizing pos with
  | zero => intro i hi; omega
  | succ f ih =>
    rw [PHash_set.probe] at h
    split at h
    · simp at h
    · rename_i k2 he
      split at h
      · simp at h
      · intro i hi
        cases i with
        | zero =>
          rw [Nat.add_zero, Nat.mod_eq_of_lt hpos, he]
          simp
        | succ i =>
          have := ih _ (Nat.mod_lt _ (by omega)) h i (by omega)
          rw [Nat.mod_add_mod] at this
          rw [show pos + (i + 1) = pos + 1 + i by omega]
          exact this

/-- With a free slot in the table, the probe over `capacity` steps finds a slot. -/
theorem get_entry_isSome (hash : Nat → Nat) (hs : PHash_set) (k q : Nat)
    (hq : q < hs.table.length) (hfree : hs.table.getD q none = none) :
    ∃ pos, hs.get_entry hash k = some pos := by
  cases hge : hs.get_entry hash k with
  | some pos => exact ⟨pos, rfl⟩
  | none =>
    exfalso
    have hL : 0 < hs.table.length := by omega
    have hp : hash k % hs.table.length < hs.table.length := Nat.mod_lt _ hL
    have hall := probe_none_occupied hs k _ _ hp hge
    by_cases hc : hash k % hs.table.length ≤ q
    · have := hall (q - hash k % hs.table.length) (by omega)
      rw [show hash k % hs.table.length + (q - hash k % hs.table.length) = q by omega,
        Nat.mod_eq_of_lt hq] at this
      exact this hfree
    · have := hall (q + hs.table.length - hash k % hs.table.length) (by omega)
      rw [show hash k % hs.table.length + (q + hs.table.length - hash k % hs.table.length)
          = q + hs.table.length by omega, Nat.add_mod_right, Nat.mod_eq_of_lt hq] at this
      exact this hfree

theorem countP_set_le (t : List (Option Nat)) (q : Nat) (v : Option Nat) :
    (t.set q v).countP Option.isSome ≤ t.countP Option.isSome + 1 := by
  induction t generalizing q with
  | nil => simp
  | cons a t ih =>
    cases q with
    | zero =>
      simp only [List.set_cons_zero, List.countP_cons]
      split <;> split <;> omega
    | succ q =>
      simp only [List.set_cons_succ, List.countP_cons]
      have := ih q
      omega

theorem insert_used_le (hash : Nat → Nat) (hs : PHash_set) (k : Nat) :
    (hs.insert hash k).used ≤ hs.used + 1 := by
  unfold PHash_set.insert PHash_set.used
  split
  · exact countP_set_le _ _ _
  · omega

theorem exists_free (hs : PHash_set) (h : hs.used < hs.table.length) :
    ∃ q, q < hs.table.length ∧ hs.table.getD q none = none := by
  by_contra hc
  have hall : ∀ a ∈ hs.table, Option.isSome a = true := by
    intro a ha
    obtain ⟨i, hi, rfl⟩ := List.getElem_of_mem ha
    cases hv : hs.table[i] with
    | some v => rfl
    | none =>
      exfalso
      apply hc
      refine ⟨i, hi, ?_⟩
      rw [List.getD_eq_getElem?_getD, List.getElem?_eq_getElem hi, hv]
      rfl
  have := List.countP_eq_length.2 hall
  unfold PHash_set.used at h
  omega

theorem insert_stored (hash : Nat → Nat) (hs : PHash_set) (k k2 : Nat)
    (hfree : hs.used < hs.table.length) :
    (∃ pos, (hs.insert hash k).table.getD pos none = some k2) ↔
      k2 = k ∨ ∃ pos, hs.table.getD pos none = some k2 := by
  obtain ⟨q, hq, hqfree⟩ := exists_free hs hfree
  obtain ⟨r, hr⟩ := get_entry_isSome hash hs k q hq hqfree
  have hL : 0 < hs.table.length := by omega
  have hrlt : r < hs.table.length := probe_lt hs k _ _ r (Nat.mod_lt _ hL) hr
  rw [insert_table hash hs k r hr]
  constructor
  · rintro ⟨pos, hpos⟩
    rw [getD_set_table] at hpos
    by_cases hc : r = pos ∧ r < hs.table.length
    · rw [if_pos hc] at hpos
      left
      simpa using hpos.symm
    · rw [if_neg hc] at hpos
      exact Or.inr ⟨pos, hpos⟩
  · rintro (rfl | ⟨pos, hpos⟩)
    · refine ⟨r, ?_⟩
      rw [getD_set_table, if_pos ⟨rfl, hrlt⟩]
    · refine ⟨pos, ?_⟩
      rw [getD_set_table]
      by_cases hc : r = pos ∧ r < hs.table.length
      · rw [if_pos hc]
        rcases probe_result hs k _ _ r hr with h1 | h1
        · rw [hc.1, hpos] at h1
          simp at h1
        · rw [hc.1, hpos] at h1
          exact h1.symm
      · rw [if_neg hc]
        exact hpos

theorem foldl_insert_spec (hash : Nat → Nat) (buf : List Nat) (hs : PHash_set)
    (hinv : hs.Inv hash) (hroom : hs.used + buf.length < hs.table.length) :
    (buf.foldl (PHash_set.insert hash) hs).Inv hash ∧
    ∀ k, (∃ pos, (buf.foldl (PHash_set.insert hash) hs).table.getD pos none = some k) ↔
      k ∈ buf ∨ ∃ pos, hs.table.getD pos none = some k := by
  induction buf generalizing hs with
  | nil => simpa using hinv
  | cons a buf ih =>
    simp only [List.foldl_cons, List.length_cons] at hroom ⊢
    have hu := insert_used_le hash hs a
    have hl := insert_length hash hs a
    obtain ⟨h1, h2⟩ := ih (hs.insert hash a) (insert_inv hash hs a hinv) (by omega)
    refine ⟨h1, fun k => ?_⟩
    rw [h2 k, insert_stored hash hs a k (by omega)]
    simp only [List.mem_cons]
    tauto

theorem new_inv (hash : Nat → Nat) (size : Nat) : (PHash_set.new size).Inv hash := by
  intro pos k h
  simp [PHash_set.new, List.getD_eq_getElem?_getD, List.getElem?_replicate] at h
  split at h <;> simp at h

theorem new_used (size : Nat) : (PHash_set.new size).used = 0 := by
  simp [PHash_set.new, PHash_set.used, List.countP_eq_zero]

theorem ht_size_gt (n : Nat) : n < ht_size n := by
  unfold ht_size
  omega

/-- The set built from `buf` answers exactly the keys of `buf`. -/
theorem make_hash_set_contains (hash : Nat → Nat) (buf : List Nat) (k : Nat) :
    (make_hash_set hash buf).contains hash k = true ↔ k ∈ buf := by
  have hroom : (PHash_set.new (ht_size buf.length)).used + buf.length
      < (PHash_set.new (ht_size buf.length)).table.length := by
    rw [new_used]
    simpa [PHash_set.new] using ht_size_gt buf.length
  obtain ⟨h1, h2⟩ := foldl_insert_spec hash buf _ (new_inv hash _) hroom
  unfold make_hash_set
  rw [contains_iff_stored hash _ k h1, h2 k]
  constructor
  · rintro (h | ⟨pos, hpos⟩)
    · exact h
    · exact absurd hpos (by
        simp [PHash_set.new, List.getD_eq_getElem?_getD, List.getElem?_replicate]
        split <;> simp)
  · exact Or.inl

/-! ## Classification (C1) -/

theorem frequent_iff (rm qm rn qn : Nat) :
    frequent rm qm rn qn = true ↔ (rm < rn ∨ qm < qn) := by
  simp [frequent]

theorem frequent_decide (rm qm rn qn : Nat) :
    frequent rm qm rn qn = decide (rm < rn ∨ qm < qn) := by
  simp [frequent, Bool.decide_or]

/-- C1: in an in-range partition both build variants collect the key of a visited
pair and zero the first reference record of its group exactly when the reference
count is strictly above `ref_max_n` or the query count strictly above
`query_max_n`; every other visited group is left as it was and contributes no key. -/
theorem classification_strict (hash : Nat → Nat) (sk : Nat → Nat → Nat)
    (ctx : Build_context) (w : World) (ctx2 : Build_context2) (w2 : World2) (seedp : Nat)
    (h1 : ctx.range.contains seedp = true) (h2 : ctx2.range.contains seedp = true)
    (hidx : seedp - ctx2.range.begin_ < w2.seed_hits.length) :
    ((Build_context.loop ctx.ref_max_n ctx.query_max_n
          (mergeVisits (w.ref_idx seedp) (ctx.query_idx seedp)) ⟨[], 0⟩).2.buf
        = ((mergeVisits (w.ref_idx seedp) (ctx.query_idx seedp)).filter
            (fun p => decide (ctx.ref_max_n < p.1.n ∨ ctx.query_max_n < p.2.n))).map
            (fun p => p.1.key) ∧
      (Build_context.call hash ctx seedp w).ref_idx seedp
        = (mergeVisits (w.ref_idx seedp) (ctx.query_idx seedp)).map
            (fun p => if ctx.ref_max_n < p.1.n ∨ ctx.query_max_n < p.2.n
              then ⟨p.1.key, zeroFirst p.1.recs⟩ else p.1) ∧
      (Build_context.call hash ctx seedp w).tables ctx.sid seedp
        = make_hash_set hash
            (((mergeVisits (w.ref_idx seedp) (ctx.query_idx seedp)).filter
              (fun p => decide (ctx.ref_max_n < p.1.n ∨ ctx.query_max_n < p.2.n))).map
              (fun p => p.1.key))) ∧
    ((Build_context2.loop (sk ctx2.sid) ctx2.ref_max_n ctx2.query_max_n
          (w2.seed_hits.getD (seedp - ctx2.range.begin_) []) ⟨[], 0⟩).2.buf
        = ((w2.seed_hits.getD (seedp - ctx2.range.begin_) []).filter
            (fun p => decide (ctx2.ref_max_n < p.s.length ∨ ctx2.query_max_n < p.r.length))).map
            (fun p => sk ctx2.sid (p.r.getD 0 0)) ∧
      (Build_context2.call hash sk ctx2 seedp w2).seed_hits.getD (seedp - ctx2.range.begin_) []
        = (w2.seed_hits.getD (seedp - ctx2.range.begin_) []).map
            (fun p => if ctx2.ref_max_n < p.s.length ∨ ctx2.query_max_n < p.r.length
              then ⟨p.r, zeroFirst p.s⟩ else p) ∧
      (Build_context2.call hash sk ctx2 seedp w2).tables ctx2.sid seedp
        = make_hash_set hash
            (((w2.seed_hits.getD (seedp - ctx2.range.begin_) []).filter
              (fun p => decide (ctx2.ref_max_n < p.s.length ∨ ctx2.query_max_n < p.r.length))).map
              (fun p => sk ctx2.sid (p.r.getD 0 0)))) := by
  rw [call_in_range hash ctx seedp w h1, call2_in_range hash sk ctx2 seedp w2 h2]
  simp only [loop_closed, loop2_closed, frequent_decide, setTable, setPartition, and_self,
    if_true, List.nil_append, decide_eq_true_eq]
  refine ⟨trivial, trivial, ?_, trivial⟩
  simp only [List.getD_eq_getElem?_getD, List.getElem?_set, if_true, hidx]
  rfl
/-- Witness of C1 on the scenario of the specification: reference counts
`[5, 200, 3]`, query counts `[1, 2, 9]`, cutoffs `(50, 20)`; only the key of the
group with 200 records is collected and only its first record is zeroed. -/
theorem classification_strict_witness :
    scenario_ctx.range.contains 0 = true ∧ scenario_ctx2.range.contains 0 = true ∧
    0 - scenario_ctx2.range.begin_ < scenario_world2.seed_hits.length ∧
    (Build_context.loop scenario_ctx.ref_max_n scenario_ctx.query_max_n
        (mergeVisits (scenario_world.ref_idx 0) (scenario_ctx.query_idx 0)) ⟨[], 0⟩).2.buf = [11] ∧
    (Build_context.call id scenario_ctx 0 scenario_world).ref_idx 0 =
      [⟨10, List.replicate 5 7⟩, ⟨11, 0 :: List.replicate 199 7⟩, ⟨12, List.replicate 3 7⟩] ∧
    (Build_context2.loop (scenario_key scenario_ctx2.sid) scenario_ctx2.ref_max_n
        scenario_ctx2.query_max_n
        (scenario_world2.seed_hits.getD (0 - scenario_ctx2.range.begin_) []) ⟨[], 0⟩).2.buf = [11] ∧
    (Build_context2.call id scenario_key scenario_ctx2 0 scenario_world2).seed_hits.getD
        (0 - scenario_ctx2.range.begin_) [] =
      [⟨List.replicate 1 4, List.replicate 5 7⟩, ⟨List.replicate 2 5, 0 :: List.replicate 199 7⟩,
       ⟨List.replicate 9 6, List.replicate 3 7⟩] :=
  ⟨by decide, by decide, by decide,
    (classification_strict id scenario_key scenario_ctx scenario_world scenario_ctx2
      scenario_world2 0 (by decide) (by decide) (by decide)).1.1.trans (by decide),
    (classification_strict id scenario_key scenario_ctx scenario_world scenario_ctx2
      scenario_world2 0 (by decide) (by decide) (by decide)).1.2.1.trans (by decide),
    (classification_strict id scenario_key scenario_ctx scenario_world scenario_ctx2
      scenario_world2 0 (by decide) (by decide) (by decide)).2.1.trans (by decide),
    (classification_strict id scenario_key scenario_ctx scenario_world scenario_ctx2
      scenario_world2 0 (by decide) (by decide) (by decide)).2.2.1.trans (by decide)⟩

/-! ## The whole build pass -/

theorem build_pass_in (hash : Nat → Nat) (N : Nat) (ctx : Build_context)
    (tables : Nat → Nat → PHash_set) (ref_idx : Nat → List Group) (p : Nat)
    (hp : p < N) (hr : ctx.range.contains p = true) :
    (build_pass hash N ctx tables ref_idx).ref_idx p
      = (Build_context.loop ctx.ref_max_n ctx.query_max_n
          (mergeVisits (ref_idx p) (ctx.query_idx p)) ⟨[], 0⟩).1 ∧
    (build_pass hash N ctx tables ref_idx).tables ctx.sid p
      = make_hash_set hash (Build_context.loop ctx.ref_max_n ctx.query_max_n
          (mergeVisits (ref_idx p) (ctx.query_idx p)) ⟨[], 0⟩).2.buf ∧
    (∀ s, s ≠ ctx.sid → (build_pass hash N ctx tables ref_idx).tables s p = tables s p) ∧
    (build_pass hash N ctx tables ref_idx).counts.getD p 0
      = (Build_context.loop ctx.ref_max_n ctx.query_max_n
          (mergeVisits (ref_idx p) (ctx.query_idx p)) ⟨[], 0⟩).2.n % 2 ^ 32 := by
  have h := ((pool_invariant hash ctx ⟨tables, ref_idx, List.replicate N 0⟩ N).2 p).1 ⟨hp, hr⟩
  rw [call_in_range hash ctx p _ hr] at h
  unfold build_pass
  refine ⟨?_, ?_, ?_, ?_⟩
  · rw [h.1]; simp [setPartition]
  · rw [h.2.1]; simp [setTable]
  · intro s hs; rw [h.2.1]; simp [setTable, hs]
  · rw [h.2.2]
    simp [List.getD_eq_getElem?_getD, List.getElem?_set, hp]

theorem build_pass_out (hash : Nat → Nat) (N : Nat) (ctx : Build_context)
    (tables : Nat → Nat → PHash_set) (ref_idx : Nat → List Group) (p : Nat)
    (h : ¬ (p < N ∧ ctx.range.contains p = true)) :
    (build_pass hash N ctx tables ref_idx).ref_idx p = ref_idx p ∧
    (∀ s, (build_pass hash N ctx tables ref_idx).tables s p = tables s p) ∧
    (build_pass hash N ctx tables ref_idx).counts.getD p 0 = 0 := by
  have h := ((pool_invariant hash ctx ⟨tables, ref_idx, List.replicate N 0⟩ N).2 p).2 h
  unfold build_pass
  refine ⟨h.1, h.2.1, ?_⟩
  rw [h.2.2]
  simp [List.getD_eq_getElem?_getD, List.getElem?_replicate]
  split <;> rfl

theorem build_pass_counts_length (hash : Nat → Nat) (N : Nat) (ctx : Build_context)
    (tables : Nat → Nat → PHash_set) (ref_idx : Nat → List Group) :
    (build_pass hash N ctx tables ref_idx).counts.length = N := by
  unfold build_pass
  rw [(pool_invariant hash ctx ⟨tables, ref_idx, List.replicate N 0⟩ N).1]
  simp

theorem build_pass2_in (hash : Nat → Nat) (sk : Nat → Nat → Nat) (N : Nat)
    (ctx : Build_context2) (tables : Nat → Nat → PHash_set) (seed_hits : List (List JoinPair))
    (p : Nat) (hp : p < N) (hr : ctx.range.contains p = true) :
    (p - ctx.range.begin_ < seed_hits.length →
      (build_pass2 hash sk N ctx tables seed_hits).seed_hits.getD (p - ctx.range.begin_) []
        = (Build_context2.loop (sk ctx.sid) ctx.ref_max_n ctx.query_max_n
            (seed_hits.getD (p - ctx.range.begin_) []) ⟨[], 0⟩).1) ∧
    (build_pass2 hash sk N ctx tables seed_hits).tables ctx.sid p
      = make_hash_set hash (Build_context2.loop (sk ctx.sid) ctx.ref_max_n ctx.query_max_n
          (seed_hits.getD (p - ctx.range.begin_) []) ⟨[], 0⟩).2.buf ∧
    (∀ s, s ≠ ctx.sid → (build_pass2 hash sk N ctx tables seed_hits).tables s p = tables s p) ∧
    (build_pass2 hash sk N ctx tables seed_hits).counts.getD p 0
      = (Build_context2.loop (sk ctx.sid) ctx.ref_max_n ctx.query_max_n
          (seed_hits.getD (p - ctx.range.begin_) []) ⟨[], 0⟩).2.n % 2 ^ 32 := by
  have h := ((pool_invariant2 hash sk ctx ⟨tables, seed_hits, List.replicate N 0⟩ N).2.2.1 p).1
    ⟨hp, hr⟩
  rw [call2_in_range hash sk ctx p _ hr] at h
  unfold build_pass2
  refine ⟨?_, ?_, ?_, ?_⟩
  · intro hslot
    rw [h.1]
    simp only [List.getD_eq_getElem?_getD, List.getElem?_set, if_true, hslot]
    rfl
  · rw [h.2.1]; simp [setTable]
  · intro s hs; rw [h.2.1]; simp [setTable, hs]
  · rw [h.2.2]
    simp [List.getD_eq_getElem?_getD, List.getElem?_set, hp]

theorem build_pass2_out (hash : Nat → Nat) (sk : Nat → Nat → Nat) (N : Nat)
    (ctx : Build_context2) (tables : Nat → Nat → PHash_set) (seed_hits : List (List JoinPair))
    (p : Nat) (h : ¬ (p < N ∧ ctx.range.contains p = true)) :
    (∀ s, (build_pass2 hash sk N ctx tables seed_hits).tables s p = tables s p) ∧
    (build_pass2 hash sk N ctx tables seed_hits).counts.getD p 0 = 0 := by
  have h := ((pool_invariant2 hash sk ctx ⟨tables, seed_hits, List.replicate N 0⟩ N).2.2.1 p).2 h
  unfold build_pass2
  refine ⟨h.1, ?_⟩
  rw [h.2]
  simp [List.getD_eq_getElem?_getD, List.getElem?_replicate]
  split <;> rfl

theorem build_pass2_slot_out (hash : Nat → Nat) (sk : Nat → Nat → Nat) (N : Nat)
    (ctx : Build_context2) (tables : Nat → Nat → PHash_set) (seed_hits : List (List JoinPair))
    (i : Nat) (h : ¬ (ctx.range.begin_ + i < N ∧ ctx.range.begin_ + i < ctx.range.end_)) :
    (build_pass2 hash sk N ctx tables seed_hits).seed_hits.getD i [] = seed_hits.getD i [] := by
  unfold build_pass2
  exact (pool_invariant2 hash sk ctx ⟨tables, seed_hits, List.replicate N 0⟩ N).2.2.2 i h

theorem build_pass2_counts_length (hash : Nat → Nat) (sk : Nat → Nat → Nat) (N : Nat)
    (ctx : Build_context2) (tables : Nat → Nat → PHash_set) (seed_hits : List (List JoinPair)) :
    (build_pass2 hash sk N ctx tables seed_hits).counts.length = N := by
  unfold build_pass2
  rw [(pool_invariant2 hash sk ctx ⟨tables, seed_hits, List.replicate N 0⟩ N).1]
  simp

/-! ## Frame of the in-range writes (C6) -/

theorem mergeVisits_fst (ref query : List Group) :
    (mergeVisits ref query).map Prod.fst = ref := by
  induction ref generalizing query with
  | nil => rfl
  | cons g is ih => simp [mergeVisits, ih]

theorem zeroFirst_length (recs : List Nat) : (zeroFirst recs).length = recs.length := by
  simp [zeroFirst]

theorem zeroFirst_getElem? (recs : List Nat) (b : Nat) :
    (zeroFirst recs)[b]? = if b = 0 ∧ b < recs.length then some 0 else recs[b]? := by
  unfold zeroFirst
  rw [List.getElem?_set]
  by_cases hb : b = 0
  · subst hb
    by_cases hl : 0 < recs.length
    · simp [hl]
    · have : recs = [] := by
        cases recs with
        | nil => rfl
        | cons a t => simp at hl
      simp [this]
  · have : ¬ (0 = b) := fun h => hb h.symm
    simp [hb, this]

/-- C6: after the build pass, in every in-range partition, the record with index 0
of each group classified frequent holds zero and every other record of the
reference side (later records of frequent groups, all records of the other
groups) holds the value it had; keys, group sizes and the number of groups are
unchanged.  Both variants. -/
theorem first_record_only (hash : Nat → Nat) (sk : Nat → Nat → Nat) (N : Nat)
    (ctx : Build_context) (tables : Nat → Nat → PHash_set) (ref_idx : Nat → List Group)
    (ctx2 : Build_context2) (seed_hits : List (List JoinPair)) (p : Nat)
    (hp : p < N) (h1 : ctx.range.contains p = true) (h2 : ctx2.range.contains p = true)
    (hslot : p - ctx2.range.begin_ < seed_hits.length) :
    ((build_pass hash N ctx tables ref_idx).ref_idx p).length = (ref_idx p).length ∧
    (∀ (a : Nat) (g h : Group), (mergeVisits (ref_idx p) (ctx.query_idx p))[a]? = some (g, h) →
      (ref_idx p)[a]? = some g ∧
      ∃ g2 : Group, ((build_pass hash N ctx tables ref_idx).ref_idx p)[a]? = some g2 ∧
        g2.key = g.key ∧ g2.recs.length = g.recs.length ∧
        ∀ b, g2.recs[b]? =
          if (ctx.ref_max_n < g.n ∨ ctx.query_max_n < h.n) ∧ b = 0 ∧ b < g.recs.length
          then some 0 else g.recs[b]?) ∧
    ((build_pass2 hash sk N ctx2 tables seed_hits).seed_hits.getD (p - ctx2.range.begin_) []).length
      = (seed_hits.getD (p - ctx2.range.begin_) []).length ∧
    (∀ (a : Nat) (it : JoinPair), (seed_hits.getD (p - ctx2.range.begin_) [])[a]? = some it →
      ∃ it2 : JoinPair, ((build_pass2 hash sk N ctx2 tables seed_hits).seed_hits.getD
            (p - ctx2.range.begin_) [])[a]? = some it2 ∧
        it2.r = it.r ∧ it2.s.length = it.s.length ∧
        ∀ b, it2.s[b]? =
          if (ctx2.ref_max_n < it.s.length ∨ ctx2.query_max_n < it.r.length) ∧ b = 0 ∧
              b < it.s.length
          then some 0 else it.s[b]?) := by
  have e1 := (build_pass_in hash N ctx tables ref_idx p hp h1).1
  have e2 := (build_pass2_in hash sk N ctx2 tables seed_hits p hp h2).1 hslot
  rw [e1, e2]
  simp only [loop_closed, loop2_closed, List.length_map]
  refine ⟨?_, ?_, trivial, ?_⟩
  · rw [← List.length_map (mergeVisits (ref_idx p) (ctx.query_idx p)) Prod.fst, mergeVisits_fst]
  · intro a g h hv
    refine ⟨?_, ?_⟩
    · have := congrArg (fun l => l[a]?) (mergeVisits_fst (ref_idx p) (ctx.query_idx p))
      simp only [List.getElem?_map, hv, Option.map_some'] at this
      exact this.symm
    · rw [List.getElem?_map, hv]
      simp only [Option.map_some']
      by_cases hc : ctx.ref_max_n < g.n ∨ ctx.query_max_n < h.n
      · have hf : frequent ctx.ref_max_n ctx.query_max_n g.n h.n = true :=
          (frequent_iff _ _ _ _).2 hc
        refine ⟨_, rfl, ?_⟩
        simp only [hf, if_true, zeroFirst_length, zeroFirst_getElem?, hc, true_and, and_self]
        exact fun _ => trivial
      · have hf : frequent ctx.ref_max_n ctx.query_max_n g.n h.n = false := by
          rw [frequent_decide]; simpa using hc
        refine ⟨_, rfl, ?_⟩
        simp [hf, hc]
  · intro a it hv
    rw [List.getElem?_map, hv]
    simp only [Option.map_some']
    by_cases hc : ctx2.ref_max_n < it.s.length ∨ ctx2.query_max_n < it.r.length
    · have hf : frequent ctx2.ref_max_n ctx2.query_max_n it.s.length it.r.length = true :=
        (frequent_iff _ _ _ _).2 hc
      refine ⟨_, rfl, ?_⟩
      simp only [hf, if_true, zeroFirst_length, zeroFirst_getElem?, hc, true_and, and_self]
      exact fun _ => trivial
    · have hf : frequent ctx2.ref_max_n ctx2.query_max_n it.s.length it.r.length = false := by
        rw [frequent_decide]; simpa using hc
      refine ⟨_, rfl, ?_⟩
      simp [hf, hc]
/-- Witness of C6 on the scenario: the partition keeps its three groups, and only
record 0 of the 200-record group is zero afterwards. -/
theorem first_record_only_witness :
    0 < 1 ∧ scenario_ctx.range.contains 0 = true ∧ scenario_ctx2.range.contains 0 = true ∧
    0 - scenario_ctx2.range.begin_ < [scenario_hits].length ∧
    ((build_pass id 1 scenario_ctx scenario_world.tables scenario_world.ref_idx).ref_idx 0).length
      = (scenario_world.ref_idx 0).length ∧
    (build_pass id 1 scenario_ctx scenario_world.tables scenario_world.ref_idx).ref_idx 0
      = [⟨10, List.replicate 5 7⟩, ⟨11, 0 :: List.replicate 199 7⟩, ⟨12, List.replicate 3 7⟩] ∧
    (build_pass2 id scenario_key 1 scenario_ctx2 scenario_world.tables [scenario_hits]).seed_hits
      = [[⟨List.replicate 1 4, List.replicate 5 7⟩, ⟨List.replicate 2 5, 0 :: List.replicate 199 7⟩,
          ⟨List.replicate 9 6, List.replicate 3 7⟩]] :=
  ⟨by decide, by decide, by decide, by decide,
    (first_record_only id scenario_key 1 scenario_ctx scenario_world.tables scenario_world.ref_idx
      scenario_ctx2 [scenario_hits] 0 (by decide) (by decide) (by decide) (by decide)).1,
    by decide, by decide⟩

/-! ## Partitions outside the range (C10) -/

theorem sum_filter_of_zero (L : List Nat) (c : Nat → Bool) (f : Nat → Nat)
    (h : ∀ p ∈ L, c p = false → f p = 0) :
    (L.map f).sum = ((L.filter c).map f).sum := by
  induction L with
  | nil => rfl
  | cons a L ih =>
    have ih2 := ih (fun p hp => h p (List.mem_cons_of_mem a hp))
    cases hc : c a with
    | true => simp [List.filter_cons, hc, ih2]
    | false =>
      have := h a (List.mem_cons_self a L) hc
      simp [List.filter_cons, hc, ih2, this]

theorem list_eq_map_range (l : List Nat) :
    l = (List.range l.length).map (fun p => l.getD p 0) := by
  apply List.ext_getElem
  · simp
  · intro i h1 h2
    simp [List.getD_eq_getElem?_getD, List.getElem?_eq_getElem h1]

theorem counts_sum_in_range (counts : List Nat) (c : Nat → Bool)
    (h : ∀ p, c p = false → counts.getD p 0 = 0) :
    counts.sum = (((List.range counts.length).filter c).map (fun p => counts.getD p 0)).sum := by
  rw [← sum_filter_of_zero (List.range counts.length) c (fun p => counts.getD p 0)
    (fun p _ hc => h p hc)]
  rw [← list_eq_map_range]

/-- C10: a partition id outside the range passed to the build pass is left alone:
its registry slot (for every shape) and its reference groups are what they were,
its entry of `counts` is 0, and hit-list slots not belonging to an in-range
partition are unchanged; hence the sum of `counts`, and the logged total, is the
sum over the in-range partitions only.  Both variants. -/
theorem outside_range_untouched (hash : Nat → Nat) (sk : Nat → Nat → Nat) (N : Nat)
    (ctx : Build_context) (tables : Nat → Nat → PHash_set) (ref_idx : Nat → List Group)
    (ctx2 : Build_context2) (seed_hits : List (List JoinPair)) (p : Nat)
    (h1 : ctx.range.contains p = false) (h2 : ctx2.range.contains p = false) :
    ((∀ s, (build_pass hash N ctx tables ref_idx).tables s p = tables s p) ∧
      (build_pass hash N ctx tables ref_idx).ref_idx p = ref_idx p ∧
      (build_pass hash N ctx tables ref_idx).counts.getD p 0 = 0 ∧
      (build_pass hash N ctx tables ref_idx).counts.sum
        = (((List.range N).filter ctx.range.contains).map
            (fun q => (build_pass hash N ctx tables ref_idx).counts.getD q 0)).sum ∧
      masked_positions (build_pass hash N ctx tables ref_idx).counts
        = masked_positions (((List.range N).filter ctx.range.contains).map
            (fun q => (build_pass hash N ctx tables ref_idx).counts.getD q 0))) ∧
    ((∀ s, (build_pass2 hash sk N ctx2 tables seed_hits).tables s p = tables s p) ∧
      (∀ i, ¬ (ctx2.range.begin_ + i < N ∧ ctx2.range.contains (ctx2.range.begin_ + i) = true) →
        (build_pass2 hash sk N ctx2 tables seed_hits).seed_hits.getD i [] = seed_hits.getD i []) ∧
      (build_pass2 hash sk N ctx2 tables seed_hits).counts.getD p 0 = 0 ∧
      (build_pass2 hash sk N ctx2 tables seed_hits).counts.sum
        = (((List.range N).filter ctx2.range.contains).map
            (fun q => (build_pass2 hash sk N ctx2 tables seed_hits).counts.getD q 0)).sum ∧
      masked_positions (build_pass2 hash sk N ctx2 tables seed_hits).counts
        = masked_positions (((List.range N).filter ctx2.range.contains).map
            (fun q => (build_pass2 hash sk N ctx2 tables seed_hits).counts.getD q 0))) := by
  have o1 := build_pass_out hash N ctx tables ref_idx p (by simp [h1])
  have o2 := build_pass2_out hash sk N ctx2 tables seed_hits p (by simp [h2])
  have s1 : (build_pass hash N ctx tables ref_idx).counts.sum
        = (((List.range N).filter ctx.range.contains).map
            (fun q => (build_pass hash N ctx tables ref_idx).counts.getD q 0)).sum := by
    have := counts_sum_in_range (build_pass hash N ctx tables ref_idx).counts ctx.range.contains
      (fun q hq => (build_pass_out hash N ctx tables ref_idx q (by simp [hq])).2.2)
    rwa [build_pass_counts_length] at this
  have s2 : (build_pass2 hash sk N ctx2 tables seed_hits).counts.sum
        = (((List.range N).filter ctx2.range.contains).map
            (fun q => (build_pass2 hash sk N ctx2 tables seed_hits).counts.getD q 0)).sum := by
    have := counts_sum_in_range (build_pass2 hash sk N ctx2 tables seed_hits).counts
      ctx2.range.contains
      (fun q hq => (build_pass2_out hash sk N ctx2 tables seed_hits q (by simp [hq])).2)
    rwa [build_pass2_counts_length] at this
  refine ⟨⟨o1.2.1, o1.1, o1.2.2, s1, ?_⟩, ⟨o2.1, ?_, o2.2, s2, ?_⟩⟩
  · unfold masked_positions; rw [← s1]
  · intro i hi
    apply build_pass2_slot_out
    intro hc
    apply hi
    refine ⟨hc.1, ?_⟩
    rw [contains_iff]
    omega
  · unfold masked_positions; rw [← s2]

/-- Witness of C10: with range `[0, 1)` and four partitions, partition 2 is outside. -/
theorem outside_range_untouched_witness :
    scenario_ctx.range.contains 2 = false ∧ scenario_ctx2.range.contains 2 = false ∧
    (build_pass id 4 scenario_ctx scenario_world.tables scenario_world.ref_idx).ref_idx 2
      = scenario_world.ref_idx 2 ∧
    (build_pass id 4 scenario_ctx scenario_world.tables scenario_world.ref_idx).counts.getD 2 0
      = 0 ∧
    (build_pass2 id scenario_key 4 scenario_ctx2 scenario_world.tables
      [scenario_hits]).counts.getD 2 0 = 0 :=
  ⟨by decide, by decide,
    (outside_range_untouched id scenario_key 4 scenario_ctx scenario_world.tables
      scenario_world.ref_idx scenario_ctx2 [scenario_hits] 2 (by decide) (by decide)).1.2.1,
    (outside_range_untouched id scenario_key 4 scenario_ctx scenario_world.tables
      scenario_world.ref_idx scenario_ctx2 [scenario_hits] 2 (by decide) (by decide)).1.2.2.1,
    (outside_range_untouched id scenario_key 4 scenario_ctx scenario_world.tables
      scenario_world.ref_idx scenario_ctx2 [scenario_hits] 2 (by decide) (by decide)).2.2.2.1⟩

/-! ## Round trip through the registry (C4) -/

/-- C4: after the build pass, for every in-range partition and every key, the set
stored in the registry slot of the built shape answers true exactly for the keys
of the visited groups classified frequent.  Both variants; in the pre-joined
variant the key of a pair is the one derived from its first query position. -/
theorem round_trip (hash : Nat → Nat) (sk : Nat → Nat → Nat) (N : Nat)
    (ctx : Build_context) (tables : Nat → Nat → PHash_set) (ref_idx : Nat → List Group)
    (ctx2 : Build_context2) (seed_hits : List (List JoinPair)) (p k : Nat)
    (hp : p < N) (h1 : ctx.range.contains p = true) (h2 : ctx2.range.contains p = true) :
    (((build_pass hash N ctx tables ref_idx).tables ctx.sid p).contains hash k = true ↔
      ∃ v ∈ mergeVisits (ref_idx p) (ctx.query_idx p),
        v.1.key = k ∧ (ctx.ref_max_n < v.1.n ∨ ctx.query_max_n < v.2.n)) ∧
    (((build_pass2 hash sk N ctx2 tables seed_hits).tables ctx2.sid p).contains hash k = true ↔
      ∃ it ∈ seed_hits.getD (p - ctx2.range.begin_) [],
        sk ctx2.sid (it.r.getD 0 0) = k ∧
          (ctx2.ref_max_n < it.s.length ∨ ctx2.query_max_n < it.r.length)) := by
  rw [(build_pass_in hash N ctx tables ref_idx p hp h1).2.1,
    (build_pass2_in hash sk N ctx2 tables seed_hits p hp h2).2.1,
    make_hash_set_contains, make_hash_set_contains]
  simp only [loop_closed, loop2_closed, List.nil_append, List.mem_map, List.mem_filter,
    frequent_iff]
  constructor
  · constructor
    · rintro ⟨v, ⟨hv, hc⟩, rfl⟩
      exact ⟨v, hv, rfl, hc⟩
    · rintro ⟨v, hv, rfl, hc⟩
      exact ⟨v, ⟨hv, hc⟩, rfl⟩
  · constructor
    · rintro ⟨v, ⟨hv, hc⟩, rfl⟩
      exact ⟨v, hv, rfl, hc⟩
    · rintro ⟨v, hv, rfl, hc⟩
      exact ⟨v, ⟨hv, hc⟩, rfl⟩

/-- Witness of C4 on the scenario: key 11 (the 200-record group) is a member. -/
theorem round_trip_witness :
    0 < 1 ∧ scenario_ctx.range.contains 0 = true ∧ scenario_ctx2.range.contains 0 = true ∧
    (((build_pass id 1 scenario_ctx scenario_world.tables scenario_world.ref_idx).tables
        scenario_ctx.sid 0).contains id 11 = true ↔
      ∃ v ∈ mergeVisits (scenario_world.ref_idx 0) (scenario_ctx.query_idx 0),
        v.1.key = 11 ∧ (scenario_ctx.ref_max_n < v.1.n ∨ scenario_ctx.query_max_n < v.2.n)) ∧
    ((build_pass id 1 scenario_ctx scenario_world.tables scenario_world.ref_idx).tables
        scenario_ctx.sid 0).contains id 11 = true ∧
    ((build_pass id 1 scenario_ctx scenario_world.tables scenario_world.ref_idx).tables
        scenario_ctx.sid 0).contains id 10 = false ∧
    ((build_pass2 id scenario_key 1 scenario_ctx2 scenario_world.tables [scenario_hits]).tables
        scenario_ctx2.sid 0).contains id 11 = true :=
  ⟨by decide, by decide, by decide,
    (round_trip id scenario_key 1 scenario_ctx scenario_world.tables scenario_world.ref_idx
      scenario_ctx2 [scenario_hits] 0 11 (by decide) (by decide) (by decide)).1,
    by decide, by decide, by decide⟩

/-! ## The merge iterator (C3) -/

theorem skipBelow_sublist (k : Nat) (j : List Group) : (skipBelow k j).Sublist j := by
  induction j with
  | nil => exact List.Sublist.refl _
  | cons q qs ih =>
    unfold skipBelow
    split
    · exact ih.trans (List.sublist_cons_self q qs)
    · exact List.Sublist.refl _

theorem advJ_sublist (k : Nat) (j : List Group) : (advJ k j).Sublist j := by
  cases j with
  | nil => exact List.Sublist.refl _
  | cons q qs =>
    by_cases h : q.key = k
    · simp only [advJ, h, if_true]
      exact List.sublist_cons_self q qs
    · simp only [advJ, h, if_false]
      exact List.Sublist.refl _

theorem queryGroup_none (k : Nat) (j : List Group) (h : ∀ q ∈ j, q.key ≠ k) :
    queryGroup j k = ⟨k, []⟩ := by
  unfold queryGroup
  rw [List.find?_eq_none.2]
  · rfl
  · intro q hq
    simpa using h q hq

/-- The query cursor after skipping stands on the group the specification pairs
with key `k`. -/
theorem curJ_skipBelow (k : Nat) (j : List Group) (hj : KeysAscending j) :
    curJ k (skipBelow k j) = queryGroup j k := by
  induction j with
  | nil => rfl
  | cons q qs ih =>
    have hqs : KeysAscending qs := (List.pairwise_cons.1 hj).2
    have hgt : ∀ x ∈ qs, q.key < x.key := (List.pairwise_cons.1 hj).1
    unfold skipBelow
    by_cases h1 : q.key < k
    · rw [if_pos h1, ih hqs]
      have : ¬ q.key = k := by omega
      simp [queryGroup, List.find?_cons, this]
    · rw [if_neg h1]
      by_cases h2 : q.key = k
      · simp [curJ, queryGroup, List.find?_cons, h2]
      · have hn : queryGroup (q :: qs) k = ⟨k, []⟩ := by
          apply queryGroup_none
          intro x hx
          rcases List.mem_cons.1 hx with rfl | hx
          · exact h2
          · have := hgt x hx
            omega
        rw [hn]
        simp [curJ, h2]

/-- Advancing past key `k` does not disturb the pairing of any larger key. -/
theorem queryGroup_advJ (k k2 : Nat) (hk : k < k2) (j : List Group) :
    queryGroup (advJ k (skipBelow k j)) k2 = queryGroup j k2 := by
  induction j with
  | nil => rfl
  | cons q qs ih =>
    unfold skipBelow
    by_cases h1 : q.key < k
    · rw [if_pos h1, ih]
      have : ¬ q.key = k2 := by omega
      simp [queryGroup, List.find?_cons, this]
    · rw [if_neg h1]
      by_cases h2 : q.key = k
      · simp only [advJ, h2, if_true]
        have : ¬ q.key = k2 := by omega
        simp [queryGroup, List.find?_cons, this]
      · simp only [advJ, h2, if_false]

/-- The merge iterator pairs every reference group, in index order, with the
query group of its key. -/
theorem mergeVisits_eq (ref query : List Group) (hr : KeysAscending ref)
    (hq : KeysAscending query) :
    mergeVisits ref query = ref.map (fun g => (g, queryGroup query g.key)) := by
  induction ref generalizing query with
  | nil => rfl
  | cons g is ih =>
    have his : KeysAscending is := (List.pairwise_cons.1 hr).2
    have hgt : ∀ x ∈ is, g.key < x.key := (List.pairwise_cons.1 hr).1
    have hq2 : KeysAscending (advJ g.key (skipBelow g.key query)) :=
      List.Pairwise.sublist ((advJ_sublist _ _).trans (skipBelow_sublist _ _)) hq
    rw [mergeVisits, curJ_skipBelow g.key query hq, ih _ his hq2, List.map_cons]
    congr 1
    apply List.map_congr_left
    intro x hx
    rw [queryGroup_advJ g.key x.key (hgt x hx)]

theorem queryGroup_of_mem (query : List Group) (x : Group) (hq : KeysAscending query)
    (hx : x ∈ query) : queryGroup query x.key = x := by
  induction query with
  | nil => simp at hx
  | cons q qs ih =>
    have hqs : KeysAscending qs := (List.pairwise_cons.1 hq).2
    have hgt : ∀ y ∈ qs, q.key < y.key := (List.pairwise_cons.1 hq).1
    rcases List.mem_cons.1 hx with rfl | hx
    · simp [queryGroup, List.find?_cons]
    · have : ¬ q.key = x.key := by
        have := hgt x hx
        omega
      have ih2 := ih hqs hx
      simp only [queryGroup, List.find?_cons, this, decide_False] at ih2 ⊢
      exact ih2

/-- C3: in the merge-join variant the build pass of an in-range partition visits
the groups of the reference index one by one in index (ascending key) order, each
paired with the query group of the same key, or with an empty group of count 0
when the query index has no such key; hence every reference group whose count
exceeds `ref_max_n` gets its key into the registry slot and its first record
zeroed, with or without a query-side group. -/
theorem merge_join_visits_reference_keys (hash : Nat → Nat) (N : Nat) (ctx : Build_context)
    (tables : Nat → Nat → PHash_set) (ref_idx : Nat → List Group) (p : Nat)
    (hp : p < N) (h1 : ctx.range.contains p = true)
    (hr : KeysAscending (ref_idx p)) (hq : KeysAscending (ctx.query_idx p)) :
    mergeVisits (ref_idx p) (ctx.query_idx p)
      = (ref_idx p).map (fun g => (g, queryGroup (ctx.query_idx p) g.key)) ∧
    ((mergeVisits (ref_idx p) (ctx.query_idx p)).map (fun v => v.1.key)).Pairwise
      (fun a b => a < b) ∧
    (∀ g ∈ ref_idx p,
      (∀ x ∈ ctx.query_idx p, x.key = g.key → queryGroup (ctx.query_idx p) g.key = x) ∧
      ((∀ x ∈ ctx.query_idx p, x.key ≠ g.key) →
        queryGroup (ctx.query_idx p) g.key = ⟨g.key, []⟩ ∧
        (queryGroup (ctx.query_idx p) g.key).n = 0)) ∧
    (∀ g ∈ ref_idx p, ctx.ref_max_n < g.n →
      ((build_pass hash N ctx tables ref_idx).tables ctx.sid p).contains hash g.key = true ∧
      (⟨g.key, zeroFirst g.recs⟩ : Group) ∈ (build_pass hash N ctx tables ref_idx).ref_idx p) := by
  have hm := mergeVisits_eq (ref_idx p) (ctx.query_idx p) hr hq
  refine ⟨hm, ?_, ?_, ?_⟩
  · rw [hm, List.map_map]
    exact (List.pairwise_map).2 hr
  · intro g _
    refine ⟨fun x hx hk => ?_, fun hn => ?_⟩
    · rw [← hk]
      exact queryGroup_of_mem _ x hq hx
    · have := queryGroup_none g.key (ctx.query_idx p) hn
      rw [this]
      exact ⟨rfl, rfl⟩
  · intro g hg hc
    obtain ⟨e1, e2, -, -⟩ := build_pass_in hash N ctx tables ref_idx p hp h1
    rw [e1, e2, make_hash_set_contains]
    simp only [loop_closed, hm, List.nil_append, List.mem_map, List.mem_filter, frequent_iff]
    refine ⟨⟨(g, queryGroup (ctx.query_idx p) g.key), ⟨⟨g, hg, rfl⟩, Or.inl hc⟩, rfl⟩, ?_⟩
    refine ⟨(g, queryGroup (ctx.query_idx p) g.key), ⟨g, hg, rfl⟩, ?_⟩
    exact if_pos (Or.inl hc)

/-- Witness of C3: key 3 has three reference records, no query group, and cutoff 2:
it is visited, paired with an empty group, and masked. -/
theorem merge_join_visits_reference_keys_witness :
    0 < 1 ∧ lonely_ctx.range.contains 0 = true ∧ KeysAscending lonely_ref ∧
    KeysAscending (lonely_ctx.query_idx 0) ∧
    mergeVisits lonely_ref (lonely_ctx.query_idx 0)
      = lonely_ref.map (fun g => (g, queryGroup (lonely_ctx.query_idx 0) g.key)) ∧
    mergeVisits lonely_ref lonely_query = [(⟨3, [7, 8, 9]⟩, ⟨3, []⟩), (⟨5, [6]⟩, ⟨5, [2]⟩)] ∧
    ((build_pass id 1 lonely_ctx empty_tables (fun _ => lonely_ref)).tables 0 0).contains id 3
      = true ∧
    (build_pass id 1 lonely_ctx empty_tables (fun _ => lonely_ref)).ref_idx 0
      = [⟨3, [0, 8, 9]⟩, ⟨5, [6]⟩] :=
  ⟨by decide, by decide, by decide, by decide,
    (merge_join_visits_reference_keys id 1 lonely_ctx empty_tables (fun _ => lonely_ref) 0
      (by decide) (by decide) (by decide) (by decide)).1,
    by decide, by decide, by decide⟩

/-! ## Counting the zeroed records -/

theorem zeroFirst_count (recs : List Nat) (hne : recs ≠ []) (h0 : 0 ∉ recs) :
    (zeroFirst recs).count 0 = 1 := by
  cases recs with
  | nil => exact absurd rfl hne
  | cons a t =>
    have ht : 0 ∉ t := fun h => h0 (List.mem_cons_of_mem a h)
    simp [zeroFirst, List.count_eq_zero.2 ht]

theorem zeroRecords_loop (rm qm : Nat) (ps : List (Group × Group))
    (h : ∀ v ∈ ps, v.1.recs ≠ [] ∧ 0 ∉ v.1.recs) :
    zeroRecords (ps.map (fun p => if frequent rm qm p.1.n p.2.n
        then ⟨p.1.key, zeroFirst p.1.recs⟩ else p.1))
      = (ps.filter (fun p => frequent rm qm p.1.n p.2.n)).length := by
  induction ps with
  | nil => rfl
  | cons v ps ih =>
    have ih2 := ih (fun x hx => h x (List.mem_cons_of_mem v hx))
    have hv := h v (List.mem_cons_self v ps)
    unfold zeroRecords at ih2 ⊢
    cases hf : frequent rm qm v.1.n v.2.n with
    | true =>
      simp only [List.map_cons, List.sum_cons, List.filter_cons, hf, if_true, List.length_cons,
        ih2, zeroFirst_count _ hv.1 hv.2]
      omega
    | false =>
      simp only [List.map_cons, List.sum_cons, List.filter_cons, hf, ih2]
      simp
      exact List.count_eq_zero.2 hv.2

theorem zeroRecords2_loop (rm qm : Nat) (ps : List JoinPair)
    (h : ∀ v ∈ ps, v.s ≠ [] ∧ 0 ∉ v.s) :
    zeroRecords2 (ps.map (fun p => if frequent rm qm p.s.length p.r.length
        then ⟨p.r, zeroFirst p.s⟩ else p))
      = (ps.filter (fun p => frequent rm qm p.s.length p.r.length)).length := by
  induction ps with
  | nil => rfl
  | cons v ps ih =>
    have ih2 := ih (fun x hx => h x (List.mem_cons_of_mem v hx))
    have hv := h v (List.mem_cons_self v ps)
    unfold zeroRecords2 at ih2 ⊢
    cases hf : frequent rm qm v.s.length v.r.length with
    | true =>
      simp only [List.map_cons, List.sum_cons, List.filter_cons, hf, if_true, List.length_cons,
        ih2, zeroFirst_count _ hv.1 hv.2]
      omega
    | false =>
      simp only [List.map_cons, List.sum_cons, List.filter_cons, hf, ih2]
      simp
      exact List.count_eq_zero.2 hv.2

/-! ## Hash table sizing (C7) -/

theorem excessBits_le (f P k : Nat) (h : P < 2 ^ (53 + k)) : excessBits f P ≤ k := by
  induction f generalizing P k with
  | zero => simp [excessBits]
  | succ f ih =>
    unfold excessBits
    split
    · omega
    · rename_i hge
      cases k with
      | zero => exact absurd h hge
      | succ k =>
        have : P / 2 < 2 ^ (53 + k) := by
          rw [show 53 + (k + 1) = (53 + k) + 1 by omega, pow_succ] at h
          omega
        have := ih (P / 2) k this
        omega

/-- A product rounded to nearest stays within half a unit of the exact product
and never drops below the unit multiple under it. -/
theorem roundNearestEven_bounds (P s : Nat) :
    P / 2 ^ s * 2 ^ s ≤ roundNearestEven P s * 2 ^ s ∧
    2 * (roundNearestEven P s * 2 ^ s) ≤ 2 * P + 2 ^ s := by
  have hT : 0 < 2 ^ s := Nat.pow_pos (by norm_num)
  have hdm : 2 ^ s * (P / 2 ^ s) + P % 2 ^ s = P := Nat.div_add_mod P (2 ^ s)
  have hr : P % 2 ^ s < 2 ^ s := Nat.mod_lt _ hT
  have hcomm : 2 ^ s * (P / 2 ^ s) = P / 2 ^ s * 2 ^ s := Nat.mul_comm _ _
  unfold roundNearestEven
  split
  · rename_i hup
    rw [Nat.add_mul, Nat.one_mul]
    constructor
    · omega
    · rcases hup with h | h
      · omega
      · omega
  · constructor
    · omega
    · omega

/-- Below `2 ^ 49` the double product `n * 1.3`, truncated, is `13 * n / 10`. -/
theorem scaledSize_eq (n : Nat) (h : n < 2 ^ 49) : scaledSize n = 13 * n / 10 := by
  have hM : hash_table_factor_mant = 5854679515581645 := rfl
  have hP : n * hash_table_factor_mant < 2 ^ (53 + 49) := by
    rw [hM]
    norm_num at h ⊢
    omega
  have hs := excessBits_le 64 (n * hash_table_factor_mant) 49 hP
  obtain ⟨hlo, hhi⟩ := roundNearestEven_bounds (n * hash_table_factor_mant)
    (excessBits 64 (n * hash_table_factor_mant))
  unfold scaledSize
  generalize excessBits 64 (n * hash_table_factor_mant) = s at hs hlo hhi ⊢
  generalize roundNearestEven (n * hash_table_factor_mant) s * 2 ^ s = R at hlo hhi ⊢
  have hT : 2 ^ s ≤ 2 ^ 49 := Nat.pow_le_pow_right (by norm_num) hs
  have hsplit : (2 : Nat) ^ 52 = 2 ^ (52 - s) * 2 ^ s := by
    rw [← pow_add]
    congr 1
    omega
  have hmP : 13 * n / 10 * 2 ^ 52 ≤ n * hash_table_factor_mant := by
    rw [hM]
    norm_num
    omega
  have hq : 13 * n / 10 * 2 ^ (52 - s) ≤ n * hash_table_factor_mant / 2 ^ s := by
    rw [Nat.le_div_iff_mul_le (Nat.pow_pos (by norm_num)), Nat.mul_assoc, ← hsplit]
    exact hmP
  have hlow : 13 * n / 10 * 2 ^ 52 ≤ R := by
    calc 13 * n / 10 * 2 ^ 52 = 13 * n / 10 * 2 ^ (52 - s) * 2 ^ s := by
          rw [Nat.mul_assoc, ← hsplit]
      _ ≤ n * hash_table_factor_mant / 2 ^ s * 2 ^ s := Nat.mul_le_mul_right _ hq
      _ ≤ R := hlo
  apply Nat.div_eq_of_lt_le
  · exact hlow
  · rw [hM] at hhi
    generalize (2 : Nat) ^ s = T at hT hhi
    norm_num at hT h ⊢
    omega

theorem floor_thirteen_tenths (n : Nat) : ⌊(13 / 10 : ℚ) * n⌋₊ = 13 * n / 10 := by
  have : (13 / 10 : ℚ) * n = ((13 * n : ℕ) : ℚ) / ((10 : ℕ) : ℚ) := by
    push_cast
    ring
  rw [this, Rat.natFloor_natCast_div_natCast]

/-- C7 as stated fails at six collected keys: the code sizes the table at 7 slots,
the formula with rounding gives 8. -/
theorem ht_size_round_counterexample :
    ht_size 6 = 7 ∧ max (round ((13 / 10 : ℚ) * 6)) (6 + 1) = 8 ∧
    (ht_size 6 : ℤ) ≠ max (round ((13 / 10 : ℚ) * 6)) (6 + 1) := by
  have h1 : ht_size 6 = 7 := by decide
  have h2 : round ((13 / 10 : ℚ) * 6) = 8 := by
    rw [round_eq]
    norm_num [Int.floor_eq_iff]
  refine ⟨h1, ?_, ?_⟩
  · rw [h2]; rfl
  · rw [h1, h2]; decide

/-- C7, amended: for fewer than `2 ^ 49` collected keys the capacity is
`max(floor(1.3 * n), n + 1)`: the product is truncated by the cast to `size_t`,
not rounded; in particular the capacity exceeds the number of keys. -/
theorem ht_size_truncates (n : Nat) (h : n < 2 ^ 49) :
    ht_size n = max ⌊(13 / 10 : ℚ) * n⌋₊ (n + 1) ∧ ht_size n = max (13 * n / 10) (n + 1) ∧
    n < ht_size n := by
  refine ⟨?_, ?_, ht_size_gt n⟩
  · rw [floor_thirteen_tenths]
    unfold ht_size
    rw [scaledSize_eq n h]
  · unfold ht_size
    rw [scaledSize_eq n h]

/-- Witness of the amended C7 at six keys. -/
theorem ht_size_truncates_witness :
    6 < 2 ^ 49 ∧ ht_size 6 = max ⌊(13 / 10 : ℚ) * (6 : ℕ)⌋₊ (6 + 1) ∧
    ht_size 6 = max (13 * 6 / 10) (6 + 1) ∧ 6 < ht_size 6 :=
  ⟨by norm_num, ht_size_truncates 6 (by norm_num)⟩

/-! ## Statistics pass (C5) -/

/-- C5, evaluation at the failing inputs: `build` is called with range `[0, 2)`.
With the global `current_range = [0, 1)` the single worker claims partition 0
only and then returns, so partition 1 of the range is skipped and its slot keeps
the empty accumulator; with `current_range = [0, 3)` the worker goes on to
partition 2, outside the range, whose slot 2 lies outside the two-slot vectors;
with `current_range = [1, 2)` partition 0 is sent to slot `0 - 1` (unsigned). -/
theorem statistics_pass_reads_global_range :
    statistics_pass ⟨0, 1⟩ ⟨0, 2⟩ (fun _ => scenario_ref) (fun _ => scenario_query) 1 [0, 0, 0]
      = some (⟨2, [[5, 200, 3], []], [[1, 2, 9], []], [0]⟩, [0]) ∧
    statistics_pass ⟨0, 3⟩ ⟨0, 2⟩ (fun _ => scenario_ref) (fun _ => scenario_query) 1 [0, 0, 0]
      = none ∧
    statistics_pass ⟨1, 2⟩ ⟨0, 2⟩ (fun _ => scenario_ref) (fun _ => scenario_query) 1 [0]
      = none ∧
    statistics_pass ⟨0, 2⟩ ⟨0, 2⟩ (fun _ => scenario_ref) (fun _ => scenario_query) 1 [0, 0, 0]
      = some (⟨3, [[5, 200, 3], [5, 200, 3]], [[1, 2, 9], [1, 2, 9]], [0, 1]⟩, [0]) := by
  decide

theorem finished_length_le (threads : Nat) (fin : List Nat) (hnd : fin.Nodup)
    (hlt : ∀ t ∈ fin, t < threads) : fin.length ≤ threads := by
  have hsub : fin.toFinset ⊆ Finset.range threads := by
    intro t ht
    exact Finset.mem_range.2 (hlt t (List.mem_toFinset.1 ht))
  have := Finset.card_le_card hsub
  rwa [List.toFinset_card_of_nodup hnd, Finset.card_range] at this

/-- One turn of a worker that has not returned keeps the state consistent and never
writes outside the vectors, when `current_range` is the range being built. -/
theorem compute_sd_turn_inv (r : SeedPartitionRange) (ref_idx query_idx : Nat → List Group)
    (threads : Nat) (hwrap : r.end_ + threads < 2 ^ 32) (st : StatState) (fin : List Nat)
    (t : Nat) (ht : t < threads) (htf : t ∉ fin)
    (hinv : StatInv r ref_idx query_idx threads (st, fin)) :
    (∃ st2, compute_sd_turn r ref_idx query_idx st = some (st2, true) ∧
      StatInv r ref_idx query_idx threads (st2, fin)) ∨
    (∃ st2, compute_sd_turn r ref_idx query_idx st = some (st2, false) ∧
      StatInv r ref_idx query_idx threads (st2, t :: fin)) := by
  obtain ⟨hnd, hlt, hcur, hcl, hle, hfin, hrl, hql, hslots⟩ := hinv
  simp only at hnd hlt hcur hcl hle hfin hrl hql hslots
  have hnd2 : (t :: fin).Nodup := List.nodup_cons.2 ⟨htf, hnd⟩
  have hlt2 : ∀ x ∈ t :: fin, x < threads := by
    intro x hx
    rcases List.mem_cons.1 hx with rfl | hx
    · exact ht
    · exact hlt x hx
  have hcard := finished_length_le threads (t :: fin) hnd2 hlt2
  simp only [List.length_cons] at hcard
  have hsize : r.size = r.end_ - r.begin_ := rfl
  by_cases hp : st.seedp < r.end_
  · left
    have hfe : fin = [] := by
      by_contra hne
      have := hfin hne
      omega
    subst hfe
    simp only [List.length_nil, Nat.add_zero] at hcur
    have hslot : (st.seedp + 2 ^ 32 - r.begin_) % 2 ^ 32 = st.claimed.length := by
      rw [hcur]
      omega
    have hsl : st.claimed.length < r.size := by omega
    refine ⟨{ seedp := (st.seedp + 1) % 2 ^ 32
              ref_out := st.ref_out.set ((st.seedp + 2 ^ 32 - r.begin_) % 2 ^ 32)
                (partition_sd (ref_idx st.seedp))
              query_out := st.query_out.set ((st.seedp + 2 ^ 32 - r.begin_) % 2 ^ 32)
                (partition_sd (query_idx st.seedp))
              claimed := st.claimed ++ [st.seedp] }, ?_, ?_⟩
    · unfold compute_sd_turn
      rw [if_pos hp, if_pos (by rw [hslot, hrl, hql]; exact ⟨hsl, hsl⟩)]
    · refine ⟨hnd, hlt, ?_, ?_, ?_, ?_, ?_, ?_, ?_⟩
      · simp only [List.length_append, List.length_singleton, List.length_nil]
        omega
      · simp only [List.length_append, List.length_singleton]
        rw [List.range'_concat, ← hcl, hcur]
        simp
      · simp only [List.length_append, List.length_singleton]
        omega
      · intro h; exact absurd rfl h
      · simp [hrl]
      · simp [hql]
      · intro i hi
        simp only [List.length_append, List.length_singleton] at hi
        simp only [hslot, List.getD_eq_getElem?_getD, List.getElem?_set]
        by_cases hic : st.claimed.length = i
        · subst hic
          simp [hrl, hql, hsl, hcur]
        · have := hslots i (by omega)
          simp only [List.getD_eq_getElem?_getD] at this
          simp only [hic, if_false]
          exact this
  · right
    have hall : r.begin_ + st.claimed.length = r.end_ := by
      by_cases hfe : fin = []
      · subst hfe
        simp only [List.length_nil, Nat.add_zero] at hcur
        omega
      · exact hfin hfe
    refine ⟨{ st with seedp := (st.seedp + 1) % 2 ^ 32 }, ?_, ?_⟩
    · unfold compute_sd_turn
      rw [if_neg hp]
    · refine ⟨hnd2, hlt2, ?_, hcl, hle, fun _ => hall, hrl, hql, hslots⟩
      simp only [List.length_cons]
      omega

/-- Every schedule keeps the statistics pass over its own range consistent. -/
theorem run_workers_inv (r : SeedPartitionRange) (ref_idx query_idx : Nat → List Group)
    (threads : Nat) (hwrap : r.end_ + threads < 2 ^ 32) (schedule : List Nat)
    (s : StatState × List Nat) (hinv : StatInv r ref_idx query_idx threads s) :
    ∃ s2, run_workers r ref_idx query_idx threads schedule s = some s2 ∧
      StatInv r ref_idx query_idx threads s2 := by
  induction schedule generalizing s with
  | nil => exact ⟨s, rfl, hinv⟩
  | cons t ts ih =>
    obtain ⟨st, fin⟩ := s
    unfold run_workers
    by_cases hc : t < threads ∧ t ∉ fin
    · rw [if_pos hc]
      rcases compute_sd_turn_inv r ref_idx query_idx threads hwrap st fin t hc.1 hc.2 hinv with
        ⟨st2, h1, h2⟩ | ⟨st2, h1, h2⟩
      · rw [h1]
        exact ih _ h2
      · rw [h1]
        exact ih _ h2
    · rw [if_neg hc]
      exact ih _ hinv

/-- When the global `current_range` is the range passed to `build`, the statistics
pass under any schedule writes inside the vectors only, claims the partition ids
`begin, begin + 1, ...` of that range in order and each once, stores partition
`p` in slot `p - begin`, and once a worker has returned every partition of the
range has been claimed. -/
theorem statistics_pass_own_range (r : SeedPartitionRange)
    (ref_idx query_idx : Nat → List Group) (threads : Nat) (schedule : List Nat)
    (hbe : r.begin_ ≤ r.end_) (hwrap : r.end_ + threads < 2 ^ 32) :
    ∃ st fin, statistics_pass r r ref_idx query_idx threads schedule = some (st, fin) ∧
      st.claimed = List.range' r.begin_ st.claimed.length ∧
      r.begin_ + st.claimed.length ≤ r.end_ ∧
      (fin ≠ [] → st.claimed = List.range' r.begin_ r.size) ∧
      (∀ i, i < st.claimed.length →
        st.ref_out.getD i [] = partition_sd (ref_idx (r.begin_ + i)) ∧
        st.query_out.getD i [] = partition_sd (query_idx (r.begin_ + i))) := by
  have h0 : StatInv r ref_idx query_idx threads
      (⟨r.begin_, List.replicate r.size [], List.replicate r.size [], []⟩, []) := by
    refine ⟨List.nodup_nil, ?_, ?_, ?_, ?_, ?_, ?_, ?_, ?_⟩ <;> simp
    exact hbe
  obtain ⟨⟨st, fin⟩, hrun, hinv⟩ :=
    run_workers_inv r ref_idx query_idx threads hwrap schedule _ h0
  obtain ⟨-, -, -, hcl, hle, hfin, -, -, hslots⟩ := hinv
  refine ⟨st, fin, hrun, hcl, hle, ?_, hslots⟩
  intro hne
  have := hfin hne
  have hsz : st.claimed.length = r.size := by
    unfold SeedPartitionRange.size
    simp only at this
    omega
  rw [← hsz]
  exact hcl

/-! ## Order of the partitions in the build pass -/

theorem call_comm (hash : Nat → Nat) (ctx : Build_context) (p q : Nat) (w : World) :
    Build_context.call hash ctx p (Build_context.call hash ctx q w)
      = Build_context.call hash ctx q (Build_context.call hash ctx p w) := by
  by_cases hpq : p = q
  · rw [hpq]
  · have hqp : q ≠ p := fun h => hpq h.symm
    cases hp : ctx.range.contains p with
    | false =>
      rw [call_out_of_range hash ctx p _ hp, call_out_of_range hash ctx p _ hp]
    | true =>
      cases hq : ctx.range.contains q with
      | false =>
        rw [call_out_of_range hash ctx q _ hq, call_out_of_range hash ctx q _ hq]
      | true =>
        rw [call_in_range hash ctx q w hq, call_in_range hash ctx p w hp,
          call_in_range hash ctx p _ hp, call_in_range hash ctx q _ hq]
        simp only [setPartition, hpq, hqp, if_false]
        congr 1
        · funext s x
          simp only [setTable]
          by_cases h1 : x = p
          · have h2 : ¬ x = q := fun h => hpq (h1.symm.trans h)
            simp only [h1, hpq, and_false, if_false]
          · simp only [h1, and_false, if_false]
        · funext x
          simp only [setPartition]
          by_cases h1 : x = p
          · simp only [h1, hpq, if_true, if_false]
          · simp only [h1, if_false]
        · exact List.set_comm _ _ _ hqp

/-- The merge-join build pass does not depend on the order in which the partitions
are handed to the workers. -/
theorem build_pass_order_independent (hash : Nat → Nat) (N : Nat) (ctx : Build_context)
    (tables : Nat → Nat → PHash_set) (ref_idx : Nat → List Group) (order : List Nat)
    (hperm : order.Perm (List.range N)) :
    launch_in_order (Build_context.call hash ctx) order ⟨tables, ref_idx, List.replicate N 0⟩
      = build_pass hash N ctx tables ref_idx := by
  unfold launch_in_order build_pass launch_scheduled_thread_pool
  exact List.Perm.foldl_eq' hperm (fun x _ y _ z => call_comm hash ctx y x z) _
theorem call2_comm (hash : Nat → Nat) (sk : Nat → Nat → Nat) (ctx : Build_context2)
    (p q : Nat) (w : World2) :
    Build_context2.call hash sk ctx p (Build_context2.call hash sk ctx q w)
      = Build_context2.call hash sk ctx q (Build_context2.call hash sk ctx p w) := by
  by_cases hpq : p = q
  · rw [hpq]
  · have hqp : q ≠ p := fun h => hpq h.symm
    cases hp : ctx.range.contains p with
    | false =>
      rw [call2_out_of_range hash sk ctx p _ hp, call2_out_of_range hash sk ctx p _ hp]
    | true =>
      cases hq : ctx.range.contains q with
      | false =>
        rw [call2_out_of_range hash sk ctx q _ hq, call2_out_of_range hash sk ctx q _ hq]
      | true =>
        have hp2 := (contains_iff _ _).1 hp
        have hq2 := (contains_iff _ _).1 hq
        have hslot : q - ctx.range.begin_ ≠ p - ctx.range.begin_ := by omega
        have hslot2 : p - ctx.range.begin_ ≠ q - ctx.range.begin_ := by omega
        rw [call2_in_range hash sk ctx q w hq, call2_in_range hash sk ctx p w hp,
          call2_in_range hash sk ctx p _ hp, call2_in_range hash sk ctx q _ hq]
        simp only [List.getD_eq_getElem?_getD, List.getElem?_set, hslot, hslot2, if_false]
        congr 1
        · funext s x
          simp only [setTable]
          by_cases h1 : x = p
          · simp only [h1, hpq, and_false, if_false]
          · simp only [h1, and_false, if_false]
        · exact List.set_comm _ _ _ hslot
        · exact List.set_comm _ _ _ hqp

/-- The pre-joined build pass does not depend on the order in which the partitions
are handed to the workers. -/
theorem build_pass2_order_independent (hash : Nat → Nat) (sk : Nat → Nat → Nat) (N : Nat)
    (ctx : Build_context2) (tables : Nat → Nat → PHash_set) (seed_hits : List (List JoinPair))
    (order : List Nat) (hperm : order.Perm (List.range N)) :
    launch_in_order (Build_context2.call hash sk ctx) order
        ⟨tables, seed_hits, List.replicate N 0⟩
      = build_pass2 hash sk N ctx tables seed_hits := by
  unfold launch_in_order build_pass2 launch_scheduled_thread_pool
  exact List.Perm.foldl_eq' hperm (fun x _ y _ z => call2_comm hash sk ctx y x z) _

/-! ## Masked-occurrence counter (C2) -/

theorem masked_positions_eq (counts : List Nat) :
    masked_positions counts = int_of_sum counts.sum := rfl

/-- C2 as stated fails, in both variants: a reference group of three records with a
query group of one record on the same key, cutoffs `(2, 5)`.  The pass writes
`counts = [3]` and logs 3, while a single record, the first, has been set to zero. -/
theorem count_conservation_counterexample :
    mergeVisits single_ref single_query = [(⟨5, [7, 8, 9]⟩, ⟨5, [2]⟩)] ∧
    zeroRecords single_ref = 0 ∧
    (build_pass id 1 single_ctx empty_tables (fun _ => single_ref)).counts = [3] ∧
    masked_positions (build_pass id 1 single_ctx empty_tables (fun _ => single_ref)).counts = 3 ∧
    (build_pass id 1 single_ctx empty_tables (fun _ => single_ref)).ref_idx 0
      = [⟨5, [0, 8, 9]⟩] ∧
    zeroRecords ((build_pass id 1 single_ctx empty_tables (fun _ => single_ref)).ref_idx 0) = 1 ∧
    (build_pass id 1 single_ctx empty_tables (fun _ => single_ref)).counts.sum
      ≠ zeroRecords ((build_pass id 1 single_ctx empty_tables (fun _ => single_ref)).ref_idx 0) ∧
    zeroRecords2 (single_hits.getD 0 []) = 0 ∧
    (build_pass2 id scenario_key 1 single_ctx2 empty_tables single_hits).counts = [3] ∧
    masked_positions (build_pass2 id scenario_key 1 single_ctx2 empty_tables single_hits).counts
      = 3 ∧
    (build_pass2 id scenario_key 1 single_ctx2 empty_tables single_hits).seed_hits
      = [[⟨[2], [0, 8, 9]⟩]] ∧
    (build_pass2 id scenario_key 1 single_ctx2 empty_tables single_hits).counts.sum
      ≠ zeroRecords2 ((build_pass2 id scenario_key 1 single_ctx2 empty_tables
          single_hits).seed_hits.getD 0 []) := by
  decide

/-- C2, amended: after the build pass `counts[p]` of an in-range partition is the
total size of the reference groups classified frequent there, reduced to 32
bits, and `counts[p]` is 0 for every other partition; the sum of `counts` is the
sum of these totals over the in-range partitions and the logged total is that
sum reduced to 32 bits and read as a signed `int`; the records set to zero are
one per frequent group, so when the records start non-zero the number of zero
records afterwards is the number of frequent groups.  Both variants. -/
theorem masked_count_is_group_total (hash : Nat → Nat) (sk : Nat → Nat → Nat) (N : Nat)
    (ctx : Build_context) (tables : Nat → Nat → PHash_set) (ref_idx : Nat → List Group)
    (ctx2 : Build_context2) (seed_hits : List (List JoinPair)) :
    ((∀ p, p < N → ctx.range.contains p = true →
        (build_pass hash N ctx tables ref_idx).counts.getD p 0
          = masked_total ctx ref_idx p % 2 ^ 32) ∧
      (∀ p, ¬ (p < N ∧ ctx.range.contains p = true) →
        (build_pass hash N ctx tables ref_idx).counts.getD p 0 = 0) ∧
      (build_pass hash N ctx tables ref_idx).counts.sum
        = (((List.range N).filter ctx.range.contains).map
            (fun p => masked_total ctx ref_idx p % 2 ^ 32)).sum ∧
      masked_positions (build_pass hash N ctx tables ref_idx).counts
        = int_of_sum (((List.range N).filter ctx.range.contains).map
            (fun p => masked_total ctx ref_idx p % 2 ^ 32)).sum ∧
      (∀ p, p < N → ctx.range.contains p = true →
        (∀ g ∈ ref_idx p, g.recs ≠ [] ∧ 0 ∉ g.recs) →
        zeroRecords ((build_pass hash N ctx tables ref_idx).ref_idx p)
          = ((mergeVisits (ref_idx p) (ctx.query_idx p)).filter
              (fun v => decide (ctx.ref_max_n < v.1.n ∨ ctx.query_max_n < v.2.n))).length)) ∧
    ((∀ p, p < N → ctx2.range.contains p = true →
        (build_pass2 hash sk N ctx2 tables seed_hits).counts.getD p 0
          = masked_total2 ctx2 seed_hits p % 2 ^ 32) ∧
      (∀ p, ¬ (p < N ∧ ctx2.range.contains p = true) →
        (build_pass2 hash sk N ctx2 tables seed_hits).counts.getD p 0 = 0) ∧
      (build_pass2 hash sk N ctx2 tables seed_hits).counts.sum
        = (((List.range N).filter ctx2.range.contains).map
            (fun p => masked_total2 ctx2 seed_hits p % 2 ^ 32)).sum ∧
      masked_positions (build_pass2 hash sk N ctx2 tables seed_hits).counts
        = int_of_sum (((List.range N).filter ctx2.range.contains).map
            (fun p => masked_total2 ctx2 seed_hits p % 2 ^ 32)).sum ∧
      (∀ p, p < N → ctx2.range.contains p = true →
        p - ctx2.range.begin_ < seed_hits.length →
        (∀ it ∈ seed_hits.getD (p - ctx2.range.begin_) [], it.s ≠ [] ∧ 0 ∉ it.s) →
        zeroRecords2 ((build_pass2 hash sk N ctx2 tables seed_hits).seed_hits.getD
            (p - ctx2.range.begin_) [])
          = ((seed_hits.getD (p - ctx2.range.begin_) []).filter
              (fun it => decide (ctx2.ref_max_n < it.s.length ∨
                ctx2.query_max_n < it.r.length))).length)) := by
  have c1 : ∀ p, p < N → ctx.range.contains p = true →
      (build_pass hash N ctx tables ref_idx).counts.getD p 0
        = masked_total ctx ref_idx p % 2 ^ 32 := by
    intro p hp hr
    rw [(build_pass_in hash N ctx tables ref_idx p hp hr).2.2.2]
    simp only [loop_closed, tally_mod, Nat.zero_add, frequent_decide, masked_total]
  have c2 : ∀ p, p < N → ctx2.range.contains p = true →
      (build_pass2 hash sk N ctx2 tables seed_hits).counts.getD p 0
        = masked_total2 ctx2 seed_hits p % 2 ^ 32 := by
    intro p hp hr
    rw [(build_pass2_in hash sk N ctx2 tables seed_hits p hp hr).2.2.2]
    simp only [loop2_closed, tally_mod, Nat.zero_add, frequent_decide, masked_total2]
  have s1 : (build_pass hash N ctx tables ref_idx).counts.sum
      = (((List.range N).filter ctx.range.contains).map
          (fun p => masked_total ctx ref_idx p % 2 ^ 32)).sum := by
    have h := counts_sum_in_range (build_pass hash N ctx tables ref_idx).counts
      ctx.range.contains
      (fun q hq => (build_pass_out hash N ctx tables ref_idx q (by simp [hq])).2.2)
    rw [build_pass_counts_length] at h
    rw [h]
    congr 1
    apply List.map_congr_left
    intro q hq
    obtain ⟨hq1, hq2⟩ := List.mem_filter.1 hq
    exact c1 q (List.mem_range.1 hq1) hq2
  have s2 : (build_pass2 hash sk N ctx2 tables seed_hits).counts.sum
      = (((List.range N).filter ctx2.range.contains).map
          (fun p => masked_total2 ctx2 seed_hits p % 2 ^ 32)).sum := by
    have h := counts_sum_in_range (build_pass2 hash sk N ctx2 tables seed_hits).counts
      ctx2.range.contains
      (fun q hq => (build_pass2_out hash sk N ctx2 tables seed_hits q (by simp [hq])).2)
    rw [build_pass2_counts_length] at h
    rw [h]
    congr 1
    apply List.map_congr_left
    intro q hq
    obtain ⟨hq1, hq2⟩ := List.mem_filter.1 hq
    exact c2 q (List.mem_range.1 hq1) hq2
  refine ⟨⟨c1, ?_, s1, ?_, ?_⟩, ⟨c2, ?_, s2, ?_, ?_⟩⟩
  · intro p hp
    exact (build_pass_out hash N ctx tables ref_idx p hp).2.2
  · rw [masked_positions_eq, s1]
  · intro p hp hr hrec
    rw [(build_pass_in hash N ctx tables ref_idx p hp hr).1]
    simp only [loop_closed]
    rw [zeroRecords_loop]
    · simp only [frequent_decide]
    · intro v hv
      apply hrec
      rw [← mergeVisits_fst (ref_idx p) (ctx.query_idx p)]
      exact List.mem_map_of_mem Prod.fst hv
  · intro p hp
    exact (build_pass2_out hash sk N ctx2 tables seed_hits p hp).2
  · rw [masked_positions_eq, s2]
  · intro p hp hr hslot hrec
    rw [(build_pass2_in hash sk N ctx2 tables seed_hits p hp hr).1 hslot]
    simp only [loop2_closed]
    rw [zeroRecords2_loop _ _ _ hrec]
    simp only [frequent_decide]

/-- Witness of the amended C2: three records counted and logged, one record zeroed,
in both variants. -/
theorem masked_count_is_group_total_witness :
    0 < 1 ∧ single_ctx.range.contains 0 = true ∧ single_ctx2.range.contains 0 = true ∧
    (∀ g ∈ single_ref, g.recs ≠ [] ∧ 0 ∉ g.recs) ∧
    (build_pass id 1 single_ctx empty_tables (fun _ => single_ref)).counts.getD 0 0
      = masked_total single_ctx (fun _ => single_ref) 0 % 2 ^ 32 ∧
    masked_total single_ctx (fun _ => single_ref) 0 = 3 ∧
    masked_positions (build_pass id 1 single_ctx empty_tables (fun _ => single_ref)).counts
      = int_of_sum (((List.range 1).filter single_ctx.range.contains).map
          (fun p => masked_total single_ctx (fun _ => single_ref) p % 2 ^ 32)).sum ∧
    zeroRecords ((build_pass id 1 single_ctx empty_tables (fun _ => single_ref)).ref_idx 0)
      = ((mergeVisits single_ref (single_ctx.query_idx 0)).filter
          (fun v => decide (single_ctx.ref_max_n < v.1.n ∨ single_ctx.query_max_n < v.2.n))).length ∧
    (build_pass2 id scenario_key 1 single_ctx2 empty_tables single_hits).counts.getD 0 0
      = masked_total2 single_ctx2 single_hits 0 % 2 ^ 32 ∧
    masked_total2 single_ctx2 single_hits 0 = 3 ∧
    int_of_sum 3000000000 = -1294967296 :=
  ⟨by decide, by decide, by decide, by decide,
    (masked_count_is_group_total id scenario_key 1 single_ctx empty_tables (fun _ => single_ref)
      single_ctx2 single_hits).1.1 0 (by decide) (by decide),
    by decide,
    (masked_count_is_group_total id scenario_key 1 single_ctx empty_tables (fun _ => single_ref)
      single_ctx2 single_hits).1.2.2.2.1,
    (masked_count_is_group_total id scenario_key 1 single_ctx empty_tables (fun _ => single_ref)
      single_ctx2 single_hits).1.2.2.2.2 0 (by decide) (by decide) (by decide),
    (masked_count_is_group_total id scenario_key 1 single_ctx empty_tables (fun _ => single_ref)
      single_ctx2 single_hits).2.1 0 (by decide) (by decide),
    by decide, by decide⟩

/-! ## Cross-variant equivalence (C9) -/

theorem excessBits_eq (f s P : Nat) (hs : s ≤ f) (hlo : s = 0 ∨ 2 ^ (52 + s) ≤ P)
    (hhi : P < 2 ^ (53 + s)) : excessBits f P = s := by
  induction s generalizing f P with
  | zero =>
    cases f with
    | zero => rfl
    | succ f => simp only [excessBits]; rw [if_pos (by simpa using hhi)]
  | succ s ih =>
    cases f with
    | zero => omega
    | succ f =>
      have hlo2 : 2 ^ (52 + (s + 1)) ≤ P := by
        rcases hlo with h | h
        · omega
        · exact h
      have h53 : (2 : Nat) ^ 53 ≤ 2 ^ (52 + (s + 1)) :=
        Nat.pow_le_pow_right (by norm_num) (by omega)
      have hnot : ¬ P < 2 ^ 53 := by omega
      simp only [excessBits]
      rw [if_neg hnot]
      have e1 : (2 : Nat) ^ (52 + (s + 1)) = 2 ^ (52 + s) * 2 := by
        rw [show 52 + (s + 1) = (52 + s) + 1 by omega, pow_succ]
      have e2 : (2 : Nat) ^ (53 + (s + 1)) = 2 ^ (53 + s) * 2 := by
        rw [show 53 + (s + 1) = (53 + s) + 1 by omega, pow_succ]
      rw [e1] at hlo2
      rw [e2] at hhi
      rw [ih f (P / 2) (by omega) (Or.inr (by omega)) (by omega)]

theorem toRat_eq (a n d : Nat) (hd : 0 < d) (h : a * d = n * 2 ^ 1074) :
    toRat a = (n : ℚ) / (d : ℚ) := by
  unfold toRat
  have h1 : ((2 ^ 1074 : ℕ) : ℚ) ≠ 0 :=
    Nat.cast_ne_zero.2 (Nat.pow_pos (by decide : 0 < 2)).ne'
  have h2 : (d : ℚ) ≠ 0 := Nat.cast_ne_zero.2 hd.ne'
  rw [div_eq_div_iff h1 h2, ← Nat.cast_mul, ← Nat.cast_mul, h]

theorem toRat_floor (a : Nat) : ⌊toRat a⌋₊ = a / 2 ^ 1074 := by
  unfold toRat
  exact Rat.natFloor_natCast_div_natCast a (2 ^ 1074)

/-- The floor of the exact value `mean + k * sd` of three represented doubles. -/
theorem exact_floor (m s k : Nat) :
    ⌊toRat m + toRat k * toRat s⌋₊ = (m * 2 ^ 1074 + k * s) / (2 ^ 1074 * 2 ^ 1074) := by
  have h : toRat m + toRat k * toRat s
      = ((m * 2 ^ 1074 + k * s : ℕ) : ℚ) / ((2 ^ 1074 * 2 ^ 1074 : ℕ) : ℚ) := by
    unfold toRat
    have hu : ((2 ^ 1074 : ℕ) : ℚ) ≠ 0 :=
      Nat.cast_ne_zero.2 (Nat.pow_pos (by decide : 0 < 2)).ne'
    rw [Nat.cast_add, Nat.cast_mul, Nat.cast_mul, Nat.cast_mul]
    generalize ((2 ^ 1074 : ℕ) : ℚ) = u at hu
    field_simp
    ring
  rw [h, Rat.natFloor_natCast_div_natCast]

theorem fmul_zero_left (b : Nat) : fmul 0 b = 0 := by
  unfold fmul roundNearestEven
  simp

theorem fmul_below_one_half : fmul dbl_below_one dbl_half = (2 ^ 52 - 1) * 2 ^ 1021 := by
  have h : excessBits 8192 (dbl_below_one * dbl_half) = 2094 :=
    excessBits_eq 8192 2094 _ (by decide) (Or.inr (by decide)) (by decide)
  unfold fmul
  rw [h]
  decide

theorem fadd_three_halves : fadd dbl_three_halves ((2 ^ 52 - 1) * 2 ^ 1021) = 2 * 2 ^ 1074 := by
  have h : excessBits 8192 (dbl_three_halves + (2 ^ 52 - 1) * 2 ^ 1021) = 1022 :=
    excessBits_eq 8192 1022 _ (by decide) (Or.inr (by decide)) (by decide)
  unfold fadd round53
  rw [h]
  decide

theorem isDouble_three_halves : IsDouble dbl_three_halves := by
  have h : excessBits 8192 dbl_three_halves = 1022 :=
    excessBits_eq 8192 1022 _ (by decide) (Or.inr (by decide)) (by decide)
  unfold IsDouble round53
  rw [h]
  decide

theorem isDouble_half : IsDouble dbl_half := by
  have h : excessBits 8192 dbl_half = 1021 :=
    excessBits_eq 8192 1021 _ (by decide) (Or.inr (by decide)) (by decide)
  unfold IsDouble round53
  rw [h]
  decide

theorem isDouble_below_one : IsDouble dbl_below_one := by
  have h : excessBits 8192 dbl_below_one = 1021 :=
    excessBits_eq 8192 1021 _ (by decide) (Or.inr (by decide)) (by decide)
  unfold IsDouble round53
  rw [h]
  decide

/-- C8 as stated fails: with mean 1.5, standard deviation 0.5 and multiplier
`1 - 2 ^ (-52)` the product 0.5 - 2 ^ (-53) is exact, the sum 2 - 2 ^ (-53) lies
halfway between two doubles and rounds to 2.0, so the cutoff is 2, while the
floor of the exact value of mean + k * sd is 1. -/
theorem threshold_floor_counterexample :
    IsDouble dbl_three_halves ∧ IsDouble dbl_half ∧ IsDouble dbl_below_one ∧
    toRat dbl_three_halves = 3 / 2 ∧ toRat dbl_half = 1 / 2 ∧
    toRat dbl_below_one = 1 - 1 / 2 ^ 52 ∧
    max_n dbl_three_halves dbl_half dbl_below_one = some 2 ∧
    ⌊toRat dbl_three_halves + toRat dbl_below_one * toRat dbl_half⌋₊ = 1 ∧
    max_n dbl_three_halves dbl_half dbl_below_one
      ≠ some ⌊toRat dbl_three_halves + toRat dbl_below_one * toRat dbl_half⌋₊ := by
  have hmax : max_n dbl_three_halves dbl_half dbl_below_one = some 2 := by
    unfold max_n
    rw [fmul_below_one_half, fadd_three_halves]
    decide
  have hfl : ⌊toRat dbl_three_halves + toRat dbl_below_one * toRat dbl_half⌋₊ = 1 := by
    rw [exact_floor]
    decide
  refine ⟨isDouble_three_halves, isDouble_half, isDouble_below_one, ?_, ?_, ?_, hmax, hfl, ?_⟩
  · have h := toRat_eq dbl_three_halves 3 2 (by decide) (by decide)
    push_cast at h
    exact h
  · have h := toRat_eq dbl_half 1 2 (by decide) (by decide)
    push_cast at h
    exact h
  · have h := toRat_eq dbl_below_one (2 ^ 52 - 1) (2 ^ 52) (by decide) (by decide)
    rw [h]
    norm_num
  · rw [hmax, hfl]
    decide

/-- C8, amended: each cutoff is the integer part of the double obtained by rounding
`k * sd` and then `mean + (k * sd)` to the nearest double, and the cast is
defined exactly when that integer part is below `2 ^ 32`; with `k = 0` the
cutoff is the floor of the mean itself.  Reference side and query side. -/
theorem threshold_is_floor_of_double (ref_mean ref_sd query_mean query_sd k : Nat) :
    (∀ t, max_n ref_mean ref_sd k = some t ↔
      t = ⌊toRat (fadd ref_mean (fmul k ref_sd))⌋₊ ∧ t < 2 ^ 32) ∧
    (∀ t, max_n query_mean query_sd k = some t ↔
      t = ⌊toRat (fadd query_mean (fmul k query_sd))⌋₊ ∧ t < 2 ^ 32) ∧
    (IsDouble ref_mean → ⌊toRat ref_mean⌋₊ < 2 ^ 32 →
      max_n ref_mean ref_sd 0 = some ⌊toRat ref_mean⌋₊) ∧
    (IsDouble query_mean → ⌊toRat query_mean⌋₊ < 2 ^ 32 →
      max_n query_mean query_sd 0 = some ⌊toRat query_mean⌋₊) := by
  have gen : ∀ j m s t, max_n m s j = some t ↔
      t = ⌊toRat (fadd m (fmul j s))⌋₊ ∧ t < 2 ^ 32 := by
    intro j m s t
    unfold max_n to_unsigned
    rw [toRat_floor]
    constructor
    · intro h
      split at h
      · rename_i hlt
        have := Option.some.inj h
        exact ⟨this.symm, this ▸ hlt⟩
      · exact absurd h (by simp)
    · rintro ⟨rfl, hlt⟩
      rw [if_pos hlt]
  have zero : ∀ m s, IsDouble m → ⌊toRat m⌋₊ < 2 ^ 32 →
      max_n m s 0 = some ⌊toRat m⌋₊ := by
    intro m s hm hlt
    rw [gen]
    have : fadd m (fmul 0 s) = m := by
      rw [fmul_zero_left]
      exact hm
    rw [this]
    exact ⟨rfl, hlt⟩
  exact ⟨gen k ref_mean ref_sd, gen k query_mean query_sd, zero ref_mean ref_sd,
    zero query_mean query_sd⟩

/-- Witness of the amended C8: mean 1.5 with multiplier 0 gives cutoff 1. -/
theorem threshold_is_floor_of_double_witness :
    IsDouble dbl_three_halves ∧ ⌊toRat dbl_three_halves⌋₊ < 2 ^ 32 ∧
    max_n dbl_three_halves dbl_half 0 = some ⌊toRat dbl_three_halves⌋₊ ∧
    ⌊toRat dbl_three_halves⌋₊ = 1 :=
  ⟨isDouble_three_halves, by rw [toRat_floor]; decide,
    (threshold_is_floor_of_double dbl_three_halves dbl_half dbl_three_halves dbl_half 0).2.2.1
      isDouble_three_halves (by rw [toRat_floor]; decide),
    by rw [toRat_floor]; decide⟩

end FrequentSeeds
